import Mathlib

/-!
Verification of the B-Tree repository (an order-4 B-tree with natural/Persian
key ordering).

Shallow embedding of `src/main.rs`:
* `NaturalString` comparator: `get_char_weight`, `compare_persian`, and the
  `Ord` implementation (`NScmp`), including the `i64` parse attempt.
* Core B-tree: `Node`, `Node.insert`, `Node.split_upper_median`, `BTree`,
  `BTree.insert` (Rust mutation is rendered as state passing: `insert`
  returns the updated node together with the optional promotion).
* The edge-label computation of the `RecursiveNode` view component.
-/

namespace BTreeSpec

/-- Rust `NaturalString::get_char_weight`: explicit weights 1..33 for the Persian
alphabet in dictionary order; any other character gets `code point + 1000`.
(`c as u32 + 1000` never overflows `u32` since code points are ≤ 0x10FFFF,
so plain `Nat` addition is faithful.) -/
def get_char_weight (c : Char) : Nat :=
  match c with
  | 'آ' => 1 | 'ا' => 2 | 'ب' => 3
  | 'پ' => 4
  | 'ت' => 5
  | 'ث' => 6 | 'ج' => 7
  | 'چ' => 8
  | 'ح' => 9 | 'خ' => 10 | 'د' => 11 | 'ذ' => 12 | 'ر' => 13 | 'ز' => 14
  | 'ژ' => 15
  | 'س' => 16 | 'ش' => 17 | 'ص' => 18 | 'ض' => 19 | 'ط' => 20 | 'ظ' => 21
  | 'ع' => 22 | 'غ' => 23 | 'ف' => 24 | 'ق' => 25
  | 'ک' => 26
  | 'گ' => 27
  | 'ل' => 28 | 'م' => 29 | 'ن' => 30 | 'و' => 31 | 'ه' => 32 | 'ی' => 33
  | _ => c.toNat + 1000

/-- Mathematical comparison on `Nat`, modelling Rust `u32::cmp` / `usize::cmp`
(the weights and lengths compared in `compare_persian` never overflow). -/
def natCmp (a b : Nat) : Ordering :=
  if a < b then .lt else if a = b then .eq else .gt

/-- Mathematical comparison on `Int`, modelling Rust `i64::cmp` on the
parsed values. -/
def intCmp (x y : Int) : Ordering :=
  if x < y then .lt else if x = y then .eq else .gt

/-- The 33 characters that `get_char_weight` tabulates, in table order. -/
def persianTable : List Char :=
  ['آ', 'ا', 'ب', 'پ', 'ت', 'ث', 'ج', 'چ', 'ح', 'خ', 'د', 'ذ', 'ر', 'ز',
   'ژ', 'س', 'ش', 'ص', 'ض', 'ط', 'ظ', 'ع', 'غ', 'ف', 'ق', 'ک', 'گ', 'ل',
   'م', 'ن', 'و', 'ه', 'ی']

/-- Rust `NaturalString::compare_persian`: the Rust index loop over
`0..min(len1, len2)` comparing `get_char_weight` at each position, followed by
`chars1.len().cmp(&chars2.len())`, rendered as structural recursion on the two
character lists (same first-difference semantics). -/
def compare_persian : List Char → List Char → Ordering
  | [], [] => .eq
  | [], _ :: _ => .lt
  | _ :: _, [] => .gt
  | c1 :: t1, c2 :: t2 =>
    match natCmp (get_char_weight c1) (get_char_weight c2) with
    | .eq => compare_persian t1 t2
    | o => o

/-- Model of Rust `str::parse::<i64>()`: an optional single leading `+` or `-`
sign, then one or more ASCII digits and nothing else; the value must fit in
`i64` (otherwise the parse errors). Returns the parsed value as an `Int`. -/
def parseI64 (s : List Char) : Option Int :=
  match s with
  | [] => none
  | c :: rest =>
    let digits := if c = '+' ∨ c = '-' then rest else s
    if digits = [] then none
    else if digits.all (fun d => d.isDigit) then
      let n : Nat := digits.foldl (fun acc d => acc * 10 + (d.toNat - '0'.toNat)) 0
      let v : Int := if c = '-' then -(n : Int) else (n : Int)
      if -(2 ^ 63) ≤ v ∧ v ≤ 2 ^ 63 - 1 then some v else none
    else none

/-- Rust `impl Ord for NaturalString`: try `parse::<i64>` on both sides; if both succeed
compare the integers, otherwise fall back to `compare_persian`. -/
def NScmp (a b : String) : Ordering :=
  match parseI64 a.data, parseI64 b.data with
  | some x, some y => intCmp x y
  | _, _ => compare_persian a.data b.data

example : NScmp "10" "2" = .gt := by decide
example : NScmp "10a" "2b" = .lt := by decide
example : NScmp "پ" "ت" = .lt := by decide
example : NScmp "ک" "گ" = .lt := by decide
example : NScmp "+5" "5" = .eq := by decide
example : NScmp "01" "1" = .eq := by decide
example : NScmp "01" "0:" = .lt := by decide
example : NScmp "0:" "1" = .lt := by decide

/-- Rust `const MAX_KEYS: usize = 3`. -/
def MAX_KEYS : Nat := 3

/-- Rust `struct Node<K> { keys: Vec<K>, children: Vec<Node<K>> }`.
The tree is generic in the key type; the Rust `K: Ord` bound becomes an
explicit comparison function `cmp : K → K → Ordering` passed to the
operations (for `NaturalString` keys it is `NScmp`). -/
inductive Node (K : Type) : Type where
  | mk (keys : List K) (children : List (Node K)) : Node K

namespace Node

variable {K : Type}

/-- The `keys` field. -/
def keys : Node K → List K
  | .mk ks _ => ks

/-- The `children` field. -/
def children : Node K → List (Node K)
  | .mk _ cs => cs

/-- Rust `Node::is_leaf`: `self.children.is_empty()`. -/
def is_leaf (n : Node K) : Bool :=
  n.children.isEmpty

/-- Model of `self.keys.binary_search(&key)` (Rust `slice::binary_search`,
which compares each probed element to `key` with `element.cmp(key)`):
`.inl i` when an element comparing `Equal` to `key` is found at `i`,
`.inr i` with the insertion index otherwise.  Rendered as the left-to-right
scan returning the first index whose element is not `Less` than `key`; on a
strictly ascending slice under a lawful comparison this is exactly the
`Ok(match) / Err(insertion point)` contract of the Rust function, and the
returned index is always at most the slice length. -/
def binary_search (cmp : K → K → Ordering) (key : K) : List K → Sum Nat Nat
  | [] => .inr 0
  | x :: xs =>
    match cmp x key with
    | .lt =>
      match binary_search cmp key xs with
      | .inl i => .inl (i + 1)
      | .inr i => .inr (i + 1)
    | .eq => .inl 0
    | .gt => .inr 0

/-- Rust `Node::split_upper_median`: `mid = keys.len() / 2`; the key at `mid` is
removed and promoted, keys after it move to a new right sibling
(`split_off(mid)` after the removal), and for an internal node the children
from `mid + 1` onward move to the sibling.  Rust mutates `self` into the left
node and returns `(promoted, right)`; here all three parts are returned as
`(left, promoted, right)`.  `Vec::remove` on an empty key vector would panic,
which is modelled by `none` (unreachable: the caller only splits a node with
more than `MAX_KEYS` keys). -/
def split_upper_median : Node K → Option (Node K × K × Node K)
  | .mk ks cs =>
    let mid := ks.length / 2
    match ks[mid]? with
    | none => none
    | some promoted =>
      let leftKeys := ks.take mid
      let rightKeys := (ks.eraseIdx mid).drop mid
      let leftChildren := if cs.isEmpty then cs else cs.take (mid + 1)
      let rightChildren := if cs.isEmpty then ([] : List (Node K)) else cs.drop (mid + 1)
      some (.mk leftKeys leftChildren, promoted, .mk rightKeys rightChildren)

/-- Auxiliary fact used for termination: a child fetched from a non-empty
children list is smaller than the node holding it. -/
theorem sizeOf_getD_lt [SizeOf K] (ks : List K) (cs : List (Node K)) (idx : Nat)
    (h : cs ≠ []) : sizeOf (cs.getD idx (Node.mk [] [])) < sizeOf (Node.mk ks cs) := by
  have hks : 1 ≤ sizeOf ks := by
    cases ks with
    | nil => simp
    | cons a as => simp; omega
  by_cases hlt : idx < cs.length
  · have hmem : cs.getD idx (Node.mk [] []) ∈ cs := by
      rw [List.getD_eq_getElem?_getD, List.getElem?_eq_getElem hlt]
      exact List.getElem_mem hlt
    have := List.sizeOf_lt_of_mem hmem
    simp only [Node.mk.sizeOf_spec]
    omega
  · rw [List.getD_eq_getElem?_getD, List.getElem?_eq_none (by omega)]
    match cs, h with
    | c :: cs', _ =>
      have hc : 3 ≤ sizeOf c := by
        match c with
        | .mk a b =>
          have ha : 1 ≤ sizeOf a := by
            cases a with
            | nil => simp
            | cons x xs => simp; omega
          have hb : 1 ≤ sizeOf b := by
            cases b with
            | nil => simp
            | cons x xs => simp; omega
          simp only [Node.mk.sizeOf_spec]; omega
      simp only [Node.mk.sizeOf_spec, List.cons.sizeOf_spec, Option.getD_none]
      simp only [Node.mk.sizeOf_spec, List.nil.sizeOf_spec]
      omega

/-- Rust `Node::insert`: binary-search this node's keys; an exact match is a
no-op (`None`); otherwise insert at the found index (leaf) or recurse into
the child at that index and absorb its promotion (internal); finally split
when the key count exceeds `MAX_KEYS`.  Rust mutates `self` and returns
`Option<(K, Node<K>)>`; here the updated node is returned alongside that
option.  Rust's `self.children[idx]` panics when `idx` is out of range; the
model supplies an empty node then (unreachable under the shape invariant,
which keeps `idx ≤ keys.len() < children.len()`). -/
def insert (cmp : K → K → Ordering) : Node K → K → Node K × Option (K × Node K)
  | .mk ks cs, key =>
    match binary_search cmp key ks with
    | .inl _ => (.mk ks cs, none)
    | .inr idx =>
      let n1 : Node K :=
        if cs.isEmpty then
          .mk (ks.insertIdx idx key) cs
        else
          match (cs.getD idx (Node.mk [] [])).insert cmp key with
          | (c1, none) => .mk ks (cs.set idx c1)
          | (c1, some (pk, rc)) =>
            .mk (ks.insertIdx idx pk) ((cs.set idx c1).insertIdx (idx + 1) rc)
      if MAX_KEYS < n1.keys.length then
        match n1.split_upper_median with
        | some (l, pk, r) => (l, some (pk, r))
        | none => (n1, none)
      else (n1, none)
termination_by n _ => sizeOf n
decreasing_by
  exact sizeOf_getD_lt ks cs idx (by simpa using ‹¬cs.isEmpty = true›)

/-- The left-to-right depth-first in-order key traversal of claim C2:
child 0's keys, key 0, child 1's keys, key 1, …  (plain `keys` for a leaf). -/
def toList : Node K → List K
  | .mk ks [] => ks
  | .mk [] (c :: cs) => c.toList ++ toList (.mk ([] : List K) cs)
  | .mk (k :: ks) (c :: cs) => c.toList ++ k :: toList (.mk ks cs)
termination_by n => sizeOf n

/-- Height of a node: 1 for a leaf, otherwise one more than the leftmost
child; under `balanced` every root-to-leaf path has exactly this length. -/
def height : Node K → Nat
  | .mk _ [] => 1
  | .mk _ (c :: _) => c.height + 1
termination_by n => sizeOf n

/-- All children have the height of the first one. -/
def heightsAgree : List (Node K) → Bool
  | [] => true
  | c :: cs => cs.all (fun d => d.height == c.height)

mutual
/-- Every node's children all have equal height (so `height` is the length
of every root-to-leaf path). -/
def balanced : Node K → Bool
  | .mk _ cs => balancedAll cs && heightsAgree cs
termination_by n => sizeOf n
/-- Predicate `balanced` holds of every node in the list. -/
def balancedAll : List (Node K) → Bool
  | [] => true
  | c :: cs => c.balanced && balancedAll cs
termination_by cs => sizeOf cs
end

mutual
/-- The shape invariant of claim C3: each node has no children (leaf) or
exactly `keys.len() + 1` children, and at most `MAX_KEYS` keys. -/
def wfShape : Node K → Bool
  | .mk ks cs =>
    (cs.isEmpty || (cs.length == ks.length + 1)) && decide (ks.length ≤ MAX_KEYS)
      && wfShapeAll cs
termination_by n => sizeOf n
/-- Predicate `wfShape` holds of every node in the list. -/
def wfShapeAll : List (Node K) → Bool
  | [] => true
  | c :: cs => c.wfShape && wfShapeAll cs
termination_by cs => sizeOf cs
end

end Node

/-- Bound `lo < x` under `cmp`, for an optional strict lower bound. -/
def lbB {K : Type} (cmp : K → K → Ordering) (lo : Option K) (x : K) : Bool :=
  match lo with
  | none => true
  | some a => cmp a x == .lt

/-- Bound `x < hi` under `cmp`, for an optional strict upper bound. -/
def ubB {K : Type} (cmp : K → K → Ordering) (hi : Option K) (x : K) : Bool :=
  match hi with
  | none => true
  | some a => cmp x a == .lt

/-- Search-tree ordering invariant: all keys of the node lie strictly
between `lo` and `hi` under `cmp`, node keys are strictly ascending, and
each child's keys lie strictly between the keys adjacent to it. -/
def Node.inv {K : Type} (cmp : K → K → Ordering) : Option K → Option K → Node K → Bool
  | _, _, .mk [] [] => true
  | lo, hi, .mk [] (c :: cs) => Node.inv cmp lo hi c && cs.isEmpty
  | lo, hi, .mk (k :: ks) [] =>
    lbB cmp lo k && ubB cmp hi k && Node.inv cmp (some k) hi (.mk ks [])
  | lo, hi, .mk (k :: ks) (c :: cs) =>
    Node.inv cmp lo (some k) c && lbB cmp lo k && ubB cmp hi k
      && Node.inv cmp (some k) hi (.mk ks cs)
termination_by _ _ n => sizeOf n

/-- Rust `struct BTree<K> { root: Node<K> }`. -/
structure BTree (K : Type) : Type where
  root : Node K

/-- Rust `BTree::new()`: an empty leaf root. -/
def BTree.new {K : Type} : BTree K :=
  ⟨.mk [] []⟩

/-- Rust `BTree::insert`: delegate to the root; on a promotion, the new root
holds the promoted key with the (mutated) old root as left child and the
returned sibling as right child. -/
def BTree.insert {K : Type} (cmp : K → K → Ordering) (t : BTree K) (key : K) : BTree K :=
  match t.root.insert cmp key with
  | (r, none) => ⟨r⟩
  | (r, some (pk, rc)) => ⟨.mk [pk] [r, rc]⟩

example :
    ((([1, 2, 3, 4] : List Nat).foldl (BTree.insert natCmp) BTree.new) : BTree Nat)
      = ⟨.mk [3] [.mk [1, 2] [], .mk [4] []]⟩ := by
  simp [BTree.insert, BTree.new, Node.insert, Node.binary_search, Node.split_upper_median,
    Node.keys, MAX_KEYS, natCmp]

example :
    ((([1, 2, 3] : List Nat).foldl (BTree.insert natCmp) BTree.new) : BTree Nat)
      = ⟨.mk [1, 2, 3] []⟩ := by
  simp [BTree.insert, BTree.new, Node.insert, Node.binary_search, Node.split_upper_median,
    Node.keys, MAX_KEYS, natCmp]

example :
    ((["ت", "پ", "ب"].foldl (BTree.insert NScmp) BTree.new) : BTree String)
      = ⟨.mk ["ب", "پ", "ت"] []⟩ := by
  have h1 : NScmp "ت" "پ" = .gt := by decide
  have h2 : NScmp "ت" "ب" = .gt := by decide
  have h3 : NScmp "پ" "ب" = .gt := by decide
  simp [BTree.insert, BTree.new, Node.insert, Node.binary_search, Node.split_upper_median,
    Node.keys, MAX_KEYS, h1, h2, h3]

/-! Section: Comparator lemmas -/

theorem natCmp_refl (a : Nat) : natCmp a a = .eq := by
  simp [natCmp]

theorem natCmp_swap (a b : Nat) : natCmp b a = (natCmp a b).swap := by
  unfold natCmp
  rcases Nat.lt_trichotomy a b with h | h | h
  · have h1 : ¬b < a := by omega
    have h2 : ¬b = a := by omega
    simp only [if_pos h, if_neg h1, if_neg h2]
    rfl
  · subst h
    simp only [if_neg (lt_irrefl a), if_pos rfl]
    rfl
  · have h1 : ¬a < b := by omega
    have h2 : ¬a = b := by omega
    simp only [if_pos h, if_neg h1, if_neg h2]
    rfl

theorem natCmp_eq_iff {a b : Nat} : natCmp a b = .eq ↔ a = b := by
  unfold natCmp
  split_ifs with h1 h2
  · simp
    omega
  · simp [h2]
  · simp
    omega

theorem natCmp_lt_iff {a b : Nat} : natCmp a b = .lt ↔ a < b := by
  unfold natCmp
  split_ifs with h1 h2
  · simp [h1]
  · simp
    omega
  · simp
    omega

theorem intCmp_refl (x : Int) : intCmp x x = .eq := by
  simp [intCmp]

theorem intCmp_swap (x y : Int) : intCmp y x = (intCmp x y).swap := by
  unfold intCmp
  rcases Int.lt_trichotomy x y with h | h | h
  · have h1 : ¬y < x := by omega
    have h2 : ¬y = x := by omega
    simp only [if_pos h, if_neg h1, if_neg h2]
    rfl
  · subst h
    simp only [if_neg (lt_irrefl x), if_pos rfl]
    rfl
  · have h1 : ¬x < y := by omega
    have h2 : ¬x = y := by omega
    simp only [if_pos h, if_neg h1, if_neg h2]
    rfl

theorem intCmp_lt_iff {x y : Int} : intCmp x y = .lt ↔ x < y := by
  unfold intCmp
  split_ifs with h1 h2
  · simp [h1]
  · simp
    omega
  · simp
    omega

theorem compare_persian_refl : ∀ s, compare_persian s s = .eq
  | [] => rfl
  | c :: t => by
    simp [compare_persian, natCmp_refl, compare_persian_refl t]

theorem compare_persian_swap : ∀ s t, compare_persian t s = (compare_persian s t).swap
  | [], [] => rfl
  | [], _ :: _ => rfl
  | _ :: _, [] => rfl
  | c1 :: t1, c2 :: t2 => by
    simp only [compare_persian, natCmp_swap (get_char_weight c1) (get_char_weight c2)]
    cases h : natCmp (get_char_weight c1) (get_char_weight c2) <;>
      simp [Ordering.swap, compare_persian_swap t1 t2]

theorem compare_persian_lt_trans : ∀ a b c, compare_persian a b = .lt →
    compare_persian b c = .lt → compare_persian a c = .lt
  | [], [], _, hab, _ => by simp [compare_persian] at hab
  | [], _ :: _, [], _, hbc => by simp [compare_persian] at hbc
  | [], _ :: _, _ :: _, _, _ => by simp [compare_persian]
  | _ :: _, [], _, hab, _ => by simp [compare_persian] at hab
  | _ :: _, _ :: _, [], _, hbc => by simp [compare_persian] at hbc
  | a :: as, b :: bs, c :: cs, hab, hbc => by
    simp only [compare_persian] at hab hbc ⊢
    cases h1 : natCmp (get_char_weight a) (get_char_weight b) <;>
      cases h2 : natCmp (get_char_weight b) (get_char_weight c) <;>
      simp [h1, h2] at hab hbc ⊢
    · have := natCmp_lt_iff.1 h1
      have := natCmp_lt_iff.1 h2
      simp [natCmp_lt_iff.2 (by omega : get_char_weight a < get_char_weight c)]
    · have := natCmp_lt_iff.1 h1
      have := natCmp_eq_iff.1 h2
      simp [natCmp_lt_iff.2 (by omega : get_char_weight a < get_char_weight c)]
    · have := natCmp_eq_iff.1 h1
      have := natCmp_lt_iff.1 h2
      simp [natCmp_lt_iff.2 (by omega : get_char_weight a < get_char_weight c)]
    · simp [natCmp_eq_iff.2 (natCmp_eq_iff.1 h1 ▸ natCmp_eq_iff.1 h2)]
      exact compare_persian_lt_trans as bs cs hab hbc

theorem swap_gt_iff {o : Ordering} : o.swap = .gt ↔ o = .lt := by
  cases o <;> simp [Ordering.swap]

/-- Weight of any tabulated character is at most 33. -/
theorem get_char_weight_of_mem {d : Char} (h : d ∈ persianTable) :
    get_char_weight d ≤ 33 := by
  fin_cases h <;> decide

/-- Any character outside the table gets weight `code point + 1000`. -/
theorem get_char_weight_of_not_mem {c : Char} (h : c ∉ persianTable) :
    get_char_weight c = c.toNat + 1000 := by
  simp only [persianTable, List.mem_cons, List.mem_singleton, not_or] at h
  unfold get_char_weight
  split
  all_goals first
    | rfl
    | (exfalso; simp_all)

/-! Section: Claim C1: the comparator is not a transitive order (corrected) -/

/-- C1 counterexample: `"01" < "0:"` and `"0:" < "1"` under the comparator
(each pair falls back to the character-weight comparison because `"0:"` does
not parse as an integer), yet `cmp("01", "1") = Equal` (both parse to 1), so
`Less`-transitivity fails. -/
theorem NScmp_trans_counterexample :
    NScmp "01" "0:" = .lt ∧ NScmp "0:" "1" = .lt ∧ NScmp "01" "1" = .eq ∧
      ¬NScmp "01" "1" = .lt :=
  ⟨by decide, by decide, by decide, by decide⟩

/-- C1 (amended): the `NaturalString` comparator satisfies `cmp(a,a) = Equal`
and `cmp(a,b) = Less ↔ cmp(b,a) = Greater`, and `Less`-transitivity holds on
any three keys that all parse fully as base-10 signed integers, and on any
three keys none of which parses; full transitivity over mixed triples fails
(see the counterexample). -/
theorem NScmp_order_laws :
    (∀ a : String, NScmp a a = .eq) ∧
    (∀ a b : String, NScmp a b = .lt ↔ NScmp b a = .gt) ∧
    (∀ a b c : String, (parseI64 a.data).isSome → (parseI64 b.data).isSome →
      (parseI64 c.data).isSome →
      NScmp a b = .lt → NScmp b c = .lt → NScmp a c = .lt) ∧
    (∀ a b c : String, parseI64 a.data = none → parseI64 b.data = none →
      parseI64 c.data = none →
      NScmp a b = .lt → NScmp b c = .lt → NScmp a c = .lt) := by
  refine ⟨?_, ?_, ?_, ?_⟩
  · intro a
    unfold NScmp
    cases h : parseI64 a.data <;> simp [intCmp_refl, compare_persian_refl]
  · intro a b
    unfold NScmp
    cases hpa : parseI64 a.data <;> cases hpb : parseI64 b.data <;>
      simp only [] <;>
      first
        | (rw [show compare_persian b.data a.data
              = (compare_persian a.data b.data).swap from compare_persian_swap _ _]
           exact swap_gt_iff.symm)
        | (rename_i x y
           rw [show intCmp y x = (intCmp x y).swap from intCmp_swap x y]
           exact swap_gt_iff.symm)
  · intro a b c hpa hpb hpc hab hbc
    rcases Option.isSome_iff_exists.1 hpa with ⟨x, hx⟩
    rcases Option.isSome_iff_exists.1 hpb with ⟨y, hy⟩
    rcases Option.isSome_iff_exists.1 hpc with ⟨z, hz⟩
    unfold NScmp at hab hbc ⊢
    rw [hx, hy] at hab
    rw [hy, hz] at hbc
    rw [hx, hz]
    simp only [] at hab hbc ⊢
    rw [intCmp_lt_iff] at hab hbc ⊢
    omega
  · intro a b c hpa hpb hpc hab hbc
    unfold NScmp at hab hbc ⊢
    rw [hpa, hpb] at hab
    rw [hpb, hpc] at hbc
    rw [hpa, hpc]
    simp only [] at hab hbc ⊢
    exact compare_persian_lt_trans _ _ _ hab hbc

/-- Witness for the amended C1: both restricted transitivity statements
applied at concrete keys. -/
theorem NScmp_order_laws_witness :
    NScmp "2" "10" = .lt ∧ NScmp "ب" "ت" = .lt :=
  ⟨NScmp_order_laws.2.2.1 "2" "3" "10" (by decide) (by decide) (by decide)
      (by decide) (by decide),
   NScmp_order_laws.2.2.2 "ب" "پ" "ت" (by decide) (by decide) (by decide)
      (by decide) (by decide)⟩

/-! Section: Claim C7: numeric vs textual comparison examples -/

/-- C7: `"10"` and `"2"` both parse as integers and compare numerically
(`10 > 2`); `"10a"` and `"2b"` do not parse, so they compare by the weight
table and `"10a"` sorts before `"2b"`. -/
theorem NScmp_numeric_vs_textual :
    NScmp "10" "2" = .gt ∧ (parseI64 "10".data).isSome ∧ (parseI64 "2".data).isSome ∧
    NScmp "10a" "2b" = .lt ∧ parseI64 "10a".data = none ∧ parseI64 "2b".data = none := by
  decide

/-! Section: Claim C8: the Persian weight table -/

/-- C8: `"پ"` sorts before `"ت"` (weights 4 < 5), `"ک"` before `"گ"`
(weights 26 < 27); the table has 33 entries; every untabulated character
weighs `code point + 1000`, hence sorts after every tabulated letter, and
untabulated characters keep their relative Unicode (code point) order. -/
theorem persian_weight_properties :
    NScmp "پ" "ت" = .lt ∧ get_char_weight 'پ' = 4 ∧ get_char_weight 'ت' = 5 ∧
    NScmp "ک" "گ" = .lt ∧ get_char_weight 'ک' = 26 ∧ get_char_weight 'گ' = 27 ∧
    persianTable.length = 33 ∧
    (∀ c : Char, c ∉ persianTable → get_char_weight c = c.toNat + 1000) ∧
    (∀ c d : Char, c ∉ persianTable → d ∈ persianTable →
      get_char_weight d < get_char_weight c) ∧
    (∀ c d : Char, c ∉ persianTable → d ∉ persianTable →
      (get_char_weight c < get_char_weight d ↔ c.toNat < d.toNat)) := by
  refine ⟨by decide, by decide, by decide, by decide, by decide, by decide, by decide,
    ?_, ?_, ?_⟩
  · intro c hc
    exact get_char_weight_of_not_mem hc
  · intro c d hc hd
    have h1 := get_char_weight_of_mem hd
    have h2 := get_char_weight_of_not_mem hc
    omega
  · intro c d hc hd
    rw [get_char_weight_of_not_mem hc, get_char_weight_of_not_mem hd]
    omega

/-- Witness for C8: the untabulated clauses applied at `'a'`, `'b'`, `'پ'`. -/
theorem persian_weight_properties_witness :
    get_char_weight 'a' = 97 + 1000 ∧ get_char_weight 'پ' < get_char_weight 'a' ∧
    (get_char_weight 'a' < get_char_weight 'b' ↔ 'a'.toNat < 'b'.toNat) :=
  ⟨persian_weight_properties.2.2.2.2.2.2.2.1 'a' (by decide),
   persian_weight_properties.2.2.2.2.2.2.2.2.1 'a' 'پ' (by decide) (by decide),
   persian_weight_properties.2.2.2.2.2.2.2.2.2 'a' 'b' (by decide) (by decide)⟩

/-! Section: Claim C10: equal-parsing spellings collide -/

/-- C10: `"+5"` and `"5"` (resp. `"01"` and `"1"`) are different strings —
so the derived `PartialEq` on `NaturalString` distinguishes them — yet the
comparator returns `Equal`; inserting `"5"` into a tree already holding
`"+5"` is a silent no-op, and only the first-inserted spelling is stored. -/
theorem equal_spelling_noop :
    NScmp "+5" "5" = .eq ∧ "+5" ≠ "5" ∧ NScmp "01" "1" = .eq ∧ "01" ≠ "1" ∧
    BTree.insert NScmp (BTree.insert NScmp BTree.new "+5") "5"
      = BTree.insert NScmp BTree.new "+5" ∧
    (BTree.insert NScmp BTree.new "+5").root.keys = ["+5"] := by
  have h : NScmp "+5" "5" = .eq := by decide
  refine ⟨by decide, by decide, by decide, by decide, ?_, ?_⟩ <;>
    simp [BTree.insert, BTree.new, Node.insert, Node.binary_search, Node.keys, MAX_KEYS, h]

/-! Section: Lawful comparison functions -/

/-- The contract Rust documents for `Ord` implementations, for an explicit
comparison function: reflexivity, swap-antisymmetry, transitivity of `Less`,
and substitutability of `Equal` keys. -/
structure LawfulCmp {K : Type} (cmp : K → K → Ordering) : Prop where
  refl : ∀ a, cmp a a = .eq
  swap : ∀ a b, cmp b a = (cmp a b).swap
  lt_trans : ∀ {a b c}, cmp a b = .lt → cmp b c = .lt → cmp a c = .lt
  eq_subst : ∀ {a b} (c), cmp a b = .eq → cmp a c = cmp b c

namespace LawfulCmp

variable {K : Type} {cmp : K → K → Ordering}

theorem eq_symm (h : LawfulCmp cmp) {a b : K} (hab : cmp a b = .eq) :
    cmp b a = .eq := by
  rw [h.swap, hab]
  rfl

theorem gt_iff_lt (h : LawfulCmp cmp) {a b : K} :
    cmp a b = .gt ↔ cmp b a = .lt := by
  rw [h.swap b a]
  cases cmp b a <;> simp [Ordering.swap]

theorem eq_subst_right (h : LawfulCmp cmp) {a b : K} (c : K)
    (hab : cmp a b = .eq) : cmp c a = cmp c b := by
  rw [h.swap a c, h.swap b c, h.eq_subst c hab]

theorem lt_of_lt_of_eq (h : LawfulCmp cmp) {a b c : K} (h1 : cmp a b = .lt)
    (h2 : cmp b c = .eq) : cmp a c = .lt := by
  rw [← h.eq_subst_right a h2]
  exact h1

theorem lt_of_eq_of_lt (h : LawfulCmp cmp) {a b c : K} (h1 : cmp a b = .eq)
    (h2 : cmp b c = .lt) : cmp a c = .lt := by
  rw [h.eq_subst c h1]
  exact h2

end LawfulCmp

theorem lawful_natCmp : LawfulCmp natCmp := by
  refine ⟨natCmp_refl, natCmp_swap, ?_, ?_⟩
  · intro a b c h1 h2
    rw [natCmp_lt_iff] at h1 h2 ⊢
    omega
  · intro a b c h
    rw [natCmp_eq_iff] at h
    subst h
    rfl

/-! Section: List-level insertion specification -/

/-- List-level specification of one insertion into a strictly ascending
list: insert `key` before the first element that is not `Less` than it, or
drop it when an `Equal` element is met. -/
def insKey {K : Type} (cmp : K → K → Ordering) (key : K) : List K → List K
  | [] => [key]
  | x :: xs =>
    match cmp x key with
    | .lt => x :: insKey cmp key xs
    | .eq => x :: xs
    | .gt => key :: x :: xs

theorem insKey_append_left {K : Type} {cmp : K → K → Ordering} {key : K} :
    ∀ {A : List K} (B : List K), (∀ x ∈ A, cmp x key = .lt) →
      insKey cmp key (A ++ B) = A ++ insKey cmp key B
  | [], _, _ => rfl
  | a :: A', B, hA => by
    have ha : cmp a key = .lt := hA a (by simp)
    have ih := @insKey_append_left K cmp key A' B (fun x hx => hA x (by simp [hx]))
    simp only [List.cons_append, insKey, ha, List.append_eq, ih]

theorem insKey_append_right {K : Type} {cmp : K → K → Ordering} {key : K} :
    ∀ (A : List K) {B : List K}, (∀ x ∈ B, cmp x key = .gt) →
      insKey cmp key (A ++ B) = insKey cmp key A ++ B
  | [], B, hB => by
    match B, hB with
    | [], _ => rfl
    | b :: B', hB =>
      have hb : cmp b key = .gt := hB b (by simp)
      simp [insKey, hb]
  | a :: A', B, hB => by
    have ih := insKey_append_right A' hB
    cases ha : cmp a key <;>
      simp only [List.cons_append, insKey, ha, List.append_eq, ih]

theorem insKey_perm {K : Type} {cmp : K → K → Ordering} {key : K} :
    ∀ {l : List K}, (∀ x ∈ l, cmp x key ≠ .eq) →
      List.Perm (insKey cmp key l) (key :: l)
  | [], _ => List.Perm.refl _
  | x :: xs, hl => by
    cases hx : cmp x key with
    | lt =>
      simp only [insKey, hx]
      exact ((insKey_perm (fun y hy => hl y (by simp [hy]))).cons x).trans
        (List.Perm.swap key x xs)
    | eq => exact absurd hx (hl x (by simp))
    | gt => simp [insKey, hx]

theorem insKey_exists_eq {K : Type} {cmp : K → K → Ordering} (hcmp : LawfulCmp cmp)
    (key : K) : ∀ l : List K, ∃ x ∈ insKey cmp key l, cmp x key = .eq
  | [] => ⟨key, by simp [insKey], hcmp.refl key⟩
  | x :: xs => by
    cases hx : cmp x key with
    | lt =>
      obtain ⟨y, hy, hyeq⟩ := insKey_exists_eq hcmp key xs
      exact ⟨y, by simp [insKey, hx, hy], hyeq⟩
    | eq => exact ⟨x, by simp [insKey, hx], hx⟩
    | gt => exact ⟨key, by simp [insKey, hx], hcmp.refl key⟩

/-! Section: Node induction and traversal decomposition -/

/-- Strong structural induction over nested `Node`s: to prove `P` of a node
it suffices to prove it of `mk ks cs` assuming it for every child in `cs`. -/
def Node.ind {K : Type} {P : Node K → Prop}
    (h : ∀ ks cs, (∀ c ∈ cs, P c) → P (.mk ks cs)) : ∀ n, P n
  | .mk ks cs => h ks cs (fun c hc => Node.ind h c)
termination_by n => sizeOf n
decreasing_by
  have := List.sizeOf_lt_of_mem hc
  simp only [Node.mk.sizeOf_spec]
  omega

/-- The tail of a traversal that starts at a key: `k₀, child₁'s keys, k₁, …`
(empty when the keys are exhausted). -/
def keyFirst {K : Type} : List K → List (Node K) → List K
  | [], _ => []
  | k :: ks, cs => k :: (Node.mk ks cs).toList

theorem toList_cons_child {K : Type} (ks : List K) (c : Node K)
    (cs : List (Node K)) (h : cs.length ≤ ks.length) :
    (Node.mk ks (c :: cs)).toList = c.toList ++ keyFirst ks cs := by
  cases ks with
  | nil =>
    simp only [List.length_nil, Nat.le_zero] at h
    have : cs = [] := List.eq_nil_of_length_eq_zero h
    subst this
    simp [Node.toList, keyFirst]
  | cons k ks' => simp [Node.toList, keyFirst]

/-- Decomposition of a traversal around child `idx`: everything before the
child, the child's keys, then the key-first tail. -/
theorem toList_decomp {K : Type} (d : Node K) :
    ∀ (idx : Nat) (ks : List K) (cs : List (Node K)), idx ≤ ks.length →
      cs.length = ks.length + 1 →
      (Node.mk ks cs).toList
        = (Node.mk (ks.take idx) (cs.take idx)).toList
          ++ (cs.getD idx d).toList ++ keyFirst (ks.drop idx) (cs.drop (idx + 1))
  | 0, ks, c :: cs', _, hlen => by
    simp only [List.take_zero, Node.toList, List.getD_cons_zero, List.drop_zero,
      List.drop_succ_cons, List.nil_append]
    exact toList_cons_child ks c cs' (by simp only [List.length_cons] at hlen; omega)
  | idx + 1, k :: ks', c :: cs', hidx, hlen => by
    simp only [List.length_cons] at hidx hlen
    have ih := toList_decomp d idx ks' cs' (by omega) (by omega)
    have hlen2 : (cs'.take idx).length ≤ (k :: ks'.take idx).length := by
      simp only [List.length_cons, List.length_take]
      omega
    simp only [List.take_succ_cons, List.drop_succ_cons, List.getD_cons_succ]
    rw [show (Node.mk (k :: ks') (c :: cs')).toList
        = c.toList ++ k :: (Node.mk ks' cs').toList from by simp [Node.toList], ih]
    rw [toList_cons_child (k :: ks'.take idx) c (cs'.take idx) hlen2]
    simp [keyFirst]

/-- Decomposition of a traversal around key `mid`: the part strictly left of
the key (children up to and including `mid`), the key, the part right of it. -/
theorem toList_split_decomp {K : Type} (d : K) :
    ∀ (mid : Nat) (ks : List K) (cs : List (Node K)), mid < ks.length →
      cs.length = ks.length + 1 →
      (Node.mk ks cs).toList
        = (Node.mk (ks.take mid) (cs.take (mid + 1))).toList
          ++ ks.getD mid d :: (Node.mk (ks.drop (mid + 1)) (cs.drop (mid + 1))).toList
  | 0, k :: ks', c :: cs', _, hlen => by
    simp only [List.take_zero, List.take_succ_cons, List.getD_cons_zero,
      List.drop_succ_cons, List.drop_zero]
    rw [show (Node.mk (k :: ks') (c :: cs')).toList
        = c.toList ++ k :: (Node.mk ks' cs').toList from by simp [Node.toList]]
    rw [show (Node.mk ([] : List K) [c]).toList = c.toList ++ (Node.mk ([] : List K) []).toList
        from by simp [Node.toList]]
    simp [Node.toList]
  | mid + 1, k :: ks', c :: cs', hmid, hlen => by
    simp only [List.length_cons] at hmid hlen
    have ih := toList_split_decomp d mid ks' cs' (by omega) (by omega)
    simp only [List.take_succ_cons, List.drop_succ_cons, List.getD_cons_succ]
    rw [show (Node.mk (k :: ks') (c :: cs')).toList
        = c.toList ++ k :: (Node.mk ks' cs').toList from by simp [Node.toList], ih]
    rw [show (Node.mk (k :: ks'.take mid) (c :: cs'.take (mid + 1))).toList
        = c.toList ++ k :: (Node.mk (ks'.take mid) (cs'.take (mid + 1))).toList
        from by simp [Node.toList]]
    simp

/-! Section: Small list surgery lemmas -/

theorem take_set_of_le {α : Type} (c1 : α) :
    ∀ (idx j : Nat) (cs : List α), j ≤ idx → (cs.set idx c1).take j = cs.take j
  | _, 0, _, _ => by simp
  | 0, _ + 1, _, h => by omega
  | _ + 1, _ + 1, [], _ => by simp
  | idx + 1, j + 1, c :: cs, h => by
    simp only [List.set_cons_succ, List.take_succ_cons]
    rw [take_set_of_le c1 idx j cs (by omega)]

theorem getD_set_self {α : Type} (c1 d : α) :
    ∀ (idx : Nat) (cs : List α), idx < cs.length → (cs.set idx c1).getD idx d = c1
  | 0, _ :: _, _ => rfl
  | idx + 1, _ :: cs, h => by
    simp only [List.set_cons_succ, List.getD_cons_succ]
    exact getD_set_self c1 d idx cs (by simp only [List.length_cons] at h; omega)

theorem drop_set_of_lt {α : Type} (c1 : α) :
    ∀ (idx : Nat) (cs : List α), (cs.set idx c1).drop (idx + 1) = cs.drop (idx + 1)
  | 0, [] => by simp
  | 0, _ :: _ => by simp
  | idx + 1, [] => by simp
  | idx + 1, c :: cs => by
    simp only [List.set_cons_succ, List.drop_succ_cons]
    exact drop_set_of_lt c1 idx cs

theorem take_insertIdx_of_le {α : Type} (a : α) :
    ∀ (j idx : Nat) (l : List α), j ≤ idx → (l.insertIdx idx a).take j = l.take j
  | 0, _, _, _ => by simp
  | _ + 1, 0, _, h => by omega
  | j + 1, idx + 1, [], _ => by simp [List.insertIdx_succ_nil]
  | j + 1, idx + 1, x :: l, h => by
    simp only [List.insertIdx_succ_cons, List.take_succ_cons]
    rw [take_insertIdx_of_le a j idx l (by omega)]

theorem getD_insertIdx_of_lt {α : Type} (a d : α) :
    ∀ (j idx : Nat) (l : List α), j < idx → (l.insertIdx idx a).getD j d = l.getD j d
  | _, 0, _, h => by omega
  | 0, idx + 1, [], _ => by simp [List.insertIdx_succ_nil]
  | 0, idx + 1, x :: l, _ => by simp [List.insertIdx_succ_cons]
  | j + 1, idx + 1, [], _ => by simp [List.insertIdx_succ_nil]
  | j + 1, idx + 1, x :: l, h => by
    simp only [List.insertIdx_succ_cons, List.getD_cons_succ]
    exact getD_insertIdx_of_lt a d j idx l (by omega)

theorem drop_insertIdx_self {α : Type} (a : α) :
    ∀ (idx : Nat) (l : List α), idx ≤ l.length →
      (l.insertIdx idx a).drop idx = a :: l.drop idx
  | 0, l, _ => by simp
  | idx + 1, [], h => by simp at h
  | idx + 1, x :: l, h => by
    simp only [List.insertIdx_succ_cons, List.drop_succ_cons]
    exact drop_insertIdx_self a idx l (by simp only [List.length_cons] at h; omega)

theorem getD_mem {α : Type} (d : α) {idx : Nat} {cs : List α} (h : idx < cs.length) :
    cs.getD idx d ∈ cs := by
  rw [List.getD_eq_getElem?_getD, List.getElem?_eq_getElem h]
  exact List.getElem_mem h

/-! Section: Binary-search scan lemmas -/

theorem binary_search_inr_le {K : Type} {cmp : K → K → Ordering} {key : K} :
    ∀ {ks : List K} {idx : Nat}, Node.binary_search cmp key ks = .inr idx →
      idx ≤ ks.length
  | [], idx, h => by
    simp only [Node.binary_search, Sum.inr.injEq] at h
    subst h
    simp
  | x :: xs, idx, h => by
    simp only [Node.binary_search] at h
    cases hx : cmp x key <;> rw [hx] at h
    · cases hrec : Node.binary_search cmp key xs <;> rw [hrec] at h
      · simp at h
      · have := binary_search_inr_le hrec
        simp only [Sum.inr.injEq] at h
        simp only [List.length_cons]
        omega
    · simp at h
    · simp only [Sum.inr.injEq] at h
      simp only [List.length_cons]
      omega

theorem binary_search_inl_mem {K : Type} {cmp : K → K → Ordering} {key : K} :
    ∀ {ks : List K} {i : Nat}, Node.binary_search cmp key ks = .inl i →
      ∃ x ∈ ks, cmp x key = .eq
  | [], i, h => by simp [Node.binary_search] at h
  | x :: xs, i, h => by
    simp only [Node.binary_search] at h
    cases hx : cmp x key <;> rw [hx] at h
    · cases hrec : Node.binary_search cmp key xs <;> rw [hrec] at h
      · obtain ⟨y, hy, hyeq⟩ := binary_search_inl_mem hrec
        exact ⟨y, by simp [hy], hyeq⟩
      · simp at h
    · exact ⟨x, by simp, hx⟩
    · simp at h

/-- The index returned by the scan is exactly the insertion point of
`insKey`: inserting there gives the list-level insertion. -/
theorem insertIdx_scan_eq_insKey {K : Type} {cmp : K → K → Ordering} {key : K} :
    ∀ {ks : List K} {idx : Nat}, Node.binary_search cmp key ks = .inr idx →
      ks.insertIdx idx key = insKey cmp key ks
  | [], idx, h => by
    simp only [Node.binary_search, Sum.inr.injEq] at h
    subst h
    simp [insKey]
  | x :: xs, idx, h => by
    simp only [Node.binary_search] at h
    cases hx : cmp x key <;> rw [hx] at h
    · cases hrec : Node.binary_search cmp key xs <;> rw [hrec] at h
      · simp at h
      · simp only [Sum.inr.injEq] at h
        subst h
        simp only [List.insertIdx_succ_cons, insKey, hx]
        rw [insertIdx_scan_eq_insKey hrec]
    · simp at h
    · simp only [Sum.inr.injEq] at h
      subst h
      simp [insKey, hx]

/-! Section: Unfolding lemmas for `Node.insert` and concrete split evaluation -/

theorem exists_len4 {α : Type} :
    ∀ {l : List α}, l.length = 4 → ∃ a b c d, l = [a, b, c, d]
  | [a, b, c, d], _ => ⟨a, b, c, d, rfl⟩
  | [], h => by simp only [List.length_nil] at h; omega
  | [_], h => by simp only [List.length_cons, List.length_nil] at h; omega
  | [_, _], h => by simp only [List.length_cons, List.length_nil] at h; omega
  | [_, _, _], h => by simp only [List.length_cons, List.length_nil] at h; omega
  | _ :: _ :: _ :: _ :: _ :: _, h => by simp only [List.length_cons] at h; omega

theorem exists_len5 {α : Type} :
    ∀ {l : List α}, l.length = 5 → ∃ a b c d e, l = [a, b, c, d, e]
  | [a, b, c, d, e], _ => ⟨a, b, c, d, e, rfl⟩
  | [], h => by simp only [List.length_nil] at h; omega
  | [_], h => by simp only [List.length_cons, List.length_nil] at h; omega
  | [_, _], h => by simp only [List.length_cons, List.length_nil] at h; omega
  | [_, _, _], h => by simp only [List.length_cons, List.length_nil] at h; omega
  | [_, _, _, _], h => by simp only [List.length_cons, List.length_nil] at h; omega
  | _ :: _ :: _ :: _ :: _ :: _ :: _, h => by simp only [List.length_cons] at h; omega

/-- Splitting an overflowed leaf (4 keys): promoted key is `keys[2]`, the
left node keeps the first 2 keys, the right sibling gets the last key. -/
theorem split_leaf4 {K : Type} (a b c d : K) :
    (Node.mk [a, b, c, d] ([] : List (Node K))).split_upper_median
      = some (.mk [a, b] [], c, .mk [d] []) := by
  simp [Node.split_upper_median]

/-- Splitting an overflowed internal node (4 keys, 5 children): children
split 3-left / 2-right. -/
theorem split_internal4 {K : Type} (a b c d : K) (e0 e1 e2 e3 e4 : Node K) :
    (Node.mk [a, b, c, d] [e0, e1, e2, e3, e4]).split_upper_median
      = some (.mk [a, b] [e0, e1, e2], c, .mk [d] [e3, e4]) := by
  simp [Node.split_upper_median]

theorem insert_eq_found {K : Type} {cmp : K → K → Ordering} {key : K} {ks : List K}
    {i : Nat} (cs : List (Node K)) (h : Node.binary_search cmp key ks = .inl i) :
    Node.insert cmp (.mk ks cs) key = (.mk ks cs, none) := by
  rw [Node.insert, h]

theorem insert_eq_leaf {K : Type} {cmp : K → K → Ordering} {key : K} {ks : List K}
    {idx : Nat} (h : Node.binary_search cmp key ks = .inr idx) :
    Node.insert cmp (.mk ks []) key =
      (if MAX_KEYS < (ks.insertIdx idx key).length then
        match (Node.mk (ks.insertIdx idx key) ([] : List (Node K))).split_upper_median with
        | some (l, pk, r) => (l, some (pk, r))
        | none => (.mk (ks.insertIdx idx key) [], none)
      else (.mk (ks.insertIdx idx key) [], none)) := by
  rw [Node.insert, h]
  simp [Node.keys]

theorem insert_eq_internal_none {K : Type} {cmp : K → K → Ordering} {key : K}
    {ks : List K} {idx : Nat} {c c1 : Node K} {cs' : List (Node K)}
    (h : Node.binary_search cmp key ks = .inr idx)
    (hrec : ((c :: cs').getD idx (Node.mk [] [])).insert cmp key = (c1, none))
    (hlen : ks.length ≤ MAX_KEYS) :
    Node.insert cmp (.mk ks (c :: cs')) key = (.mk ks ((c :: cs').set idx c1), none) := by
  rw [Node.insert, h]
  simp only [List.isEmpty_cons, Bool.false_eq_true, if_false, hrec, Node.keys]
  rw [if_neg (by omega)]

theorem insert_eq_internal_promo {K : Type} {cmp : K → K → Ordering} {key : K}
    {ks : List K} {idx : Nat} {c c1 rc : Node K} {pk : K} {cs' : List (Node K)}
    (h : Node.binary_search cmp key ks = .inr idx)
    (hrec : ((c :: cs').getD idx (Node.mk [] [])).insert cmp key = (c1, some (pk, rc))) :
    Node.insert cmp (.mk ks (c :: cs')) key =
      (if MAX_KEYS < (ks.insertIdx idx pk).length then
        match (Node.mk (ks.insertIdx idx pk)
            (((c :: cs').set idx c1).insertIdx (idx + 1) rc)).split_upper_median with
        | some (l, pk2, r) => (l, some (pk2, r))
        | none => (.mk (ks.insertIdx idx pk)
            (((c :: cs').set idx c1).insertIdx (idx + 1) rc), none)
      else (.mk (ks.insertIdx idx pk)
          (((c :: cs').set idx c1).insertIdx (idx + 1) rc), none)) := by
  rw [Node.insert, h]
  simp only [List.isEmpty_cons, Bool.false_eq_true, if_false, hrec, Node.keys]

/-! Section: Characterizations of the Bool invariants -/

theorem wfShapeAll_iff {K : Type} :
    ∀ {cs : List (Node K)}, Node.wfShapeAll cs = true ↔ ∀ c ∈ cs, c.wfShape = true
  | [] => by simp [Node.wfShapeAll]
  | c :: cs => by
    rw [Node.wfShapeAll]
    simp only [Bool.and_eq_true, @wfShapeAll_iff K cs, List.mem_cons]
    constructor
    · rintro ⟨h1, h2⟩ x (rfl | hx)
      · exact h1
      · exact h2 x hx
    · intro h
      exact ⟨h c (Or.inl rfl), fun x hx => h x (Or.inr hx)⟩

theorem wfShape_iff {K : Type} {ks : List K} {cs : List (Node K)} :
    Node.wfShape (.mk ks cs) = true ↔
      (cs = [] ∨ cs.length = ks.length + 1) ∧ ks.length ≤ MAX_KEYS ∧
        ∀ c ∈ cs, c.wfShape = true := by
  rw [Node.wfShape]
  simp [Bool.and_eq_true, Bool.or_eq_true, List.isEmpty_iff, wfShapeAll_iff,
    decide_eq_true_iff, and_assoc]

theorem balancedAll_iff {K : Type} :
    ∀ {cs : List (Node K)}, Node.balancedAll cs = true ↔ ∀ c ∈ cs, c.balanced = true
  | [] => by simp [Node.balancedAll]
  | c :: cs => by
    rw [Node.balancedAll]
    simp only [Bool.and_eq_true, @balancedAll_iff K cs, List.mem_cons]
    constructor
    · rintro ⟨h1, h2⟩ x (rfl | hx)
      · exact h1
      · exact h2 x hx
    · intro h
      exact ⟨h c (Or.inl rfl), fun x hx => h x (Or.inr hx)⟩

theorem heightsAgree_iff {K : Type} {cs : List (Node K)} :
    Node.heightsAgree cs = true ↔ ∀ c ∈ cs, ∀ d ∈ cs, c.height = d.height := by
  cases cs with
  | nil => simp [Node.heightsAgree]
  | cons c cs =>
    simp only [Node.heightsAgree, List.all_eq_true, beq_iff_eq, List.mem_cons]
    constructor
    · intro h x hx y hy
      have hx' : x.height = c.height := by
        rcases hx with rfl | hx
        · rfl
        · exact h x hx
      have hy' : y.height = c.height := by
        rcases hy with rfl | hy
        · rfl
        · exact h y hy
      omega
    · intro h x hx
      exact h x (Or.inr hx) c (Or.inl rfl)

theorem balanced_iff {K : Type} {ks : List K} {cs : List (Node K)} :
    Node.balanced (.mk ks cs) = true ↔
      (∀ c ∈ cs, c.balanced = true) ∧ ∀ c ∈ cs, ∀ d ∈ cs, c.height = d.height := by
  rw [Node.balanced]
  simp [Bool.and_eq_true, balancedAll_iff, heightsAgree_iff]

theorem height_nil {K : Type} (ks : List K) : Node.height (.mk ks []) = 1 := by
  rw [Node.height]

theorem height_cons {K : Type} (ks : List K) (c : Node K) (cs : List (Node K)) :
    Node.height (.mk ks (c :: cs)) = c.height + 1 := by
  rw [Node.height]

/-- Updating via `set` at a slot with a height-preserving replacement keeps a node's
height (the head child's height is unchanged). -/
theorem height_mk_set {K : Type} (ks ks' : List K) (c0 c1 : Node K)
    (cs' : List (Node K)) (idx : Nat)
    (hh : c1.height = ((c0 :: cs').getD idx (Node.mk [] [])).height) :
    Node.height (.mk ks' ((c0 :: cs').set idx c1)) = Node.height (.mk ks (c0 :: cs')) := by
  cases idx with
  | zero =>
    simp only [List.set_cons_zero, height_cons]
    simp only [List.getD_cons_zero] at hh
    omega
  | succ j =>
    simp only [List.set_cons_succ, height_cons]

/-- Updating via `set` then `insertIdx` one slot later also keeps the head child, hence
the height. -/
theorem height_mk_set_insert {K : Type} (ks ks' : List K) (c0 c1 rc : Node K)
    (cs' : List (Node K)) (idx : Nat)
    (hh : c1.height = ((c0 :: cs').getD idx (Node.mk [] [])).height) :
    Node.height (.mk ks' (((c0 :: cs').set idx c1).insertIdx (idx + 1) rc))
      = Node.height (.mk ks (c0 :: cs')) := by
  cases idx with
  | zero =>
    simp only [List.set_cons_zero, List.insertIdx_succ_cons, height_cons]
    simp only [List.getD_cons_zero] at hh
    omega
  | succ j =>
    simp only [List.set_cons_succ, List.insertIdx_succ_cons, height_cons]

/-! Section: Outcome-level unfolding of `Node.insert` -/

theorem insert_eq_leaf_no {K : Type} {cmp : K → K → Ordering} {key : K} {ks : List K}
    {idx : Nat} (h : Node.binary_search cmp key ks = .inr idx)
    (hov : ¬MAX_KEYS < (ks.insertIdx idx key).length) :
    Node.insert cmp (.mk ks []) key = (.mk (ks.insertIdx idx key) [], none) := by
  rw [insert_eq_leaf h, if_neg hov]

theorem insert_eq_leaf_ovf {K : Type} {cmp : K → K → Ordering} {key : K} {ks : List K}
    {idx : Nat} {a b c d : K} (h : Node.binary_search cmp key ks = .inr idx)
    (h4 : ks.insertIdx idx key = [a, b, c, d]) :
    Node.insert cmp (.mk ks []) key = (.mk [a, b] [], some (c, .mk [d] [])) := by
  rw [insert_eq_leaf h, h4, if_pos (by simp [MAX_KEYS]), split_leaf4]

theorem insert_eq_internal_promo_no {K : Type} {cmp : K → K → Ordering} {key : K}
    {ks : List K} {idx : Nat} {c c1 rc : Node K} {pk : K} {cs' : List (Node K)}
    (h : Node.binary_search cmp key ks = .inr idx)
    (hrec : ((c :: cs').getD idx (Node.mk [] [])).insert cmp key = (c1, some (pk, rc)))
    (hov : ¬MAX_KEYS < (ks.insertIdx idx pk).length) :
    Node.insert cmp (.mk ks (c :: cs')) key
      = (.mk (ks.insertIdx idx pk) (((c :: cs').set idx c1).insertIdx (idx + 1) rc),
         none) := by
  rw [insert_eq_internal_promo h hrec, if_neg hov]

theorem insert_eq_internal_promo_ovf {K : Type} {cmp : K → K → Ordering} {key : K}
    {ks : List K} {idx : Nat} {c0 c1 rc : Node K} {pk : K} {cs' : List (Node K)}
    {a b c d : K} {e0 e1 e2 e3 e4 : Node K}
    (h : Node.binary_search cmp key ks = .inr idx)
    (hrec : ((c0 :: cs').getD idx (Node.mk [] [])).insert cmp key = (c1, some (pk, rc)))
    (hks2 : ks.insertIdx idx pk = [a, b, c, d])
    (hcs2 : ((c0 :: cs').set idx c1).insertIdx (idx + 1) rc = [e0, e1, e2, e3, e4]) :
    Node.insert cmp (.mk ks (c0 :: cs')) key
      = (.mk [a, b] [e0, e1, e2], some (c, .mk [d] [e3, e4])) := by
  rw [insert_eq_internal_promo h hrec, hks2, hcs2, if_pos (by simp [MAX_KEYS]),
    split_internal4]

/-! Section: Shape, balance and height preservation (any comparator) -/

/-- One `Node.insert` preserves the shape invariant and balance and never
changes the node's height; a promoted right sibling is itself well-shaped,
balanced, and of the same height.  This holds for an arbitrary comparison
function — routing plays no role in the shape bookkeeping. -/
theorem insert_shape {K : Type} (cmp : K → K → Ordering) (key : K) :
    ∀ n : Node K, n.wfShape = true → n.balanced = true →
      (n.insert cmp key).1.wfShape = true ∧ (n.insert cmp key).1.balanced = true ∧
      (n.insert cmp key).1.height = n.height ∧
      ∀ pk r, (n.insert cmp key).2 = some (pk, r) →
        r.wfShape = true ∧ r.balanced = true ∧ r.height = n.height := by
  refine Node.ind ?_
  intro ks cs IH hshape hbal
  obtain ⟨hcs, hkslen, hall⟩ := wfShape_iff.1 hshape
  obtain ⟨hballall, hagree⟩ := balanced_iff.1 hbal
  cases hsearch : Node.binary_search cmp key ks with
  | inl i =>
    rw [insert_eq_found cs hsearch]
    exact ⟨hshape, hbal, rfl, fun pk r hpr => by simp at hpr⟩
  | inr idx =>
    have hidxle : idx ≤ ks.length := binary_search_inr_le hsearch
    cases cs with
    | nil =>
      have hlen1 : (ks.insertIdx idx key).length = ks.length + 1 :=
        List.length_insertIdx idx ks hidxle
      by_cases hov : MAX_KEYS < (ks.insertIdx idx key).length
      · have h4 : (ks.insertIdx idx key).length = 4 := by
          simp only [MAX_KEYS] at hov hkslen
          omega
        obtain ⟨a, b, c, d, habcd⟩ := exists_len4 h4
        rw [insert_eq_leaf_ovf hsearch habcd]
        refine ⟨?_, ?_, ?_, ?_⟩
        · rw [wfShape_iff]
          exact ⟨Or.inl rfl, by simp [MAX_KEYS], by simp⟩
        · rw [balanced_iff]
          simp
        · rw [height_nil, height_nil]
        · intro pk r hpr
          simp only [Option.some.injEq, Prod.mk.injEq] at hpr
          obtain ⟨rfl, rfl⟩ := hpr
          refine ⟨?_, ?_, ?_⟩
          · rw [wfShape_iff]
            exact ⟨Or.inl rfl, by simp [MAX_KEYS], by simp⟩
          · rw [balanced_iff]
            simp
          · rw [height_nil, height_nil]
      · rw [insert_eq_leaf_no hsearch hov]
        refine ⟨?_, ?_, ?_, fun pk r hpr => by simp at hpr⟩
        · rw [wfShape_iff]
          refine ⟨Or.inl rfl, ?_, by simp⟩
          simp only [MAX_KEYS] at hov ⊢
          omega
        · rw [balanced_iff]
          simp
        · rw [height_nil, height_nil]
    | cons c0 cs' =>
      have hcslen : (c0 :: cs').length = ks.length + 1 := by
        rcases hcs with h | h
        · exact absurd h (by simp)
        · exact h
      have hidxlt : idx < (c0 :: cs').length := by
        rw [hcslen]
        omega
      have hmem : (c0 :: cs').getD idx (Node.mk [] []) ∈ c0 :: cs' :=
        getD_mem _ hidxlt
      obtain ⟨hc1shape, hc1bal, hc1height, hpromo⟩ :=
        IH _ hmem (hall _ hmem) (hballall _ hmem)
      rcases hrec : ((c0 :: cs').getD idx (Node.mk [] [])).insert cmp key
        with ⟨c1, promo⟩
      rw [hrec] at hc1shape hc1bal hc1height hpromo
      cases promo with
      | none =>
        rw [insert_eq_internal_none hsearch hrec hkslen]
        refine ⟨?_, ?_, ?_, fun pk r hpr => by simp at hpr⟩
        · rw [wfShape_iff]
          refine ⟨Or.inr (by simp [hcslen]), hkslen, ?_⟩
          intro x hx
          rcases List.mem_or_eq_of_mem_set hx with hx' | rfl
          · exact hall x hx'
          · exact hc1shape
        · rw [balanced_iff]
          have hh : ∀ x ∈ (c0 :: cs').set idx c1, x.height = c0.height := by
            intro x hx
            rcases List.mem_or_eq_of_mem_set hx with hx' | rfl
            · exact hagree x hx' c0 (by simp)
            · rw [hc1height]
              exact hagree _ hmem c0 (by simp)
          refine ⟨?_, fun x hx y hy => by rw [hh x hx, hh y hy]⟩
          intro x hx
          rcases List.mem_or_eq_of_mem_set hx with hx' | rfl
          · exact hballall x hx'
          · exact hc1bal
        · exact height_mk_set ks ks c0 c1 cs' idx hc1height
      | some pkrc =>
        obtain ⟨pk, rc⟩ := pkrc
        obtain ⟨hrcshape, hrcbal, hrcheight⟩ := hpromo pk rc rfl
        have hlenset : ((c0 :: cs').set idx c1).length = ks.length + 1 := by
          simp [hcslen]
        have hlencs2 : (((c0 :: cs').set idx c1).insertIdx (idx + 1) rc).length
            = ks.length + 2 := by
          rw [List.length_insertIdx (idx + 1) _ (by rw [hlenset]; omega), hlenset]
        have hlenks2 : (ks.insertIdx idx pk).length = ks.length + 1 :=
          List.length_insertIdx idx ks hidxle
        have hmem2 : ∀ x ∈ ((c0 :: cs').set idx c1).insertIdx (idx + 1) rc,
            x = rc ∨ x = c1 ∨ x ∈ c0 :: cs' := by
          intro x hx
          rcases (List.mem_insertIdx (by rw [hlenset]; omega)).1 hx with rfl | hx'
          · exact Or.inl rfl
          · rcases List.mem_or_eq_of_mem_set hx' with h' | rfl
            · exact Or.inr (Or.inr h')
            · exact Or.inr (Or.inl rfl)
        have hshape2 : ∀ x ∈ ((c0 :: cs').set idx c1).insertIdx (idx + 1) rc,
            x.wfShape = true := by
          intro x hx
          rcases hmem2 x hx with rfl | rfl | h'
          · exact hrcshape
          · exact hc1shape
          · exact hall x h'
        have hbal2 : ∀ x ∈ ((c0 :: cs').set idx c1).insertIdx (idx + 1) rc,
            x.balanced = true := by
          intro x hx
          rcases hmem2 x hx with rfl | rfl | h'
          · exact hrcbal
          · exact hc1bal
          · exact hballall x h'
        have hh2 : ∀ x ∈ ((c0 :: cs').set idx c1).insertIdx (idx + 1) rc,
            x.height = c0.height := by
          intro x hx
          rcases hmem2 x hx with rfl | rfl | h'
          · rw [hrcheight]
            exact hagree _ hmem c0 (by simp)
          · rw [hc1height]
            exact hagree _ hmem c0 (by simp)
          · exact hagree x h' c0 (by simp)
        have hheq : Node.height (.mk (ks.insertIdx idx pk)
              (((c0 :: cs').set idx c1).insertIdx (idx + 1) rc))
            = Node.height (.mk ks (c0 :: cs')) :=
          height_mk_set_insert ks (ks.insertIdx idx pk) c0 c1 rc cs' idx hc1height
        by_cases hov : MAX_KEYS < (ks.insertIdx idx pk).length
        · have h4 : (ks.insertIdx idx pk).length = 4 := by
            simp only [MAX_KEYS] at hov hkslen
            omega
          have h5 : (((c0 :: cs').set idx c1).insertIdx (idx + 1) rc).length = 5 := by
            rw [hlencs2]
            simp only [MAX_KEYS] at hov
            omega
          obtain ⟨a, b, c, d, hks4⟩ := exists_len4 h4
          obtain ⟨e0, e1, e2, e3, e4, hcs5⟩ := exists_len5 h5
          rw [insert_eq_internal_promo_ovf hsearch hrec hks4 hcs5]
          have hE : ∀ x ∈ [e0, e1, e2, e3, e4],
              x.height = c0.height ∧ x.wfShape = true ∧ x.balanced = true := by
            intro x hx
            rw [← hcs5] at hx
            exact ⟨hh2 x hx, hshape2 x hx, hbal2 x hx⟩
          have hE0 := hE e0 (by simp)
          have hE1 := hE e1 (by simp)
          have hE2 := hE e2 (by simp)
          have hE3 := hE e3 (by simp)
          have hE4 := hE e4 (by simp)
          refine ⟨?_, ?_, ?_, ?_⟩
          · rw [wfShape_iff]
            refine ⟨Or.inr (by simp), by simp [MAX_KEYS], ?_⟩
            intro x hx
            simp only [List.mem_cons, List.not_mem_nil, or_false] at hx
            rcases hx with rfl | rfl | rfl
            · exact hE0.2.1
            · exact hE1.2.1
            · exact hE2.2.1
          · rw [balanced_iff]
            constructor
            · intro x hx
              simp only [List.mem_cons, List.not_mem_nil, or_false] at hx
              rcases hx with rfl | rfl | rfl
              · exact hE0.2.2
              · exact hE1.2.2
              · exact hE2.2.2
            · intro x hx y hy
              simp only [List.mem_cons, List.not_mem_nil, or_false] at hx hy
              have hx' : x.height = c0.height := by
                rcases hx with rfl | rfl | rfl
                · exact hE0.1
                · exact hE1.1
                · exact hE2.1
              have hy' : y.height = c0.height := by
                rcases hy with rfl | rfl | rfl
                · exact hE0.1
                · exact hE1.1
                · exact hE2.1
              omega
          · rw [height_cons, height_cons, hE0.1]
          · intro pk' r' hpr
            simp only [Option.some.injEq, Prod.mk.injEq] at hpr
            obtain ⟨rfl, rfl⟩ := hpr
            refine ⟨?_, ?_, ?_⟩
            · rw [wfShape_iff]
              refine ⟨Or.inr (by simp), by simp [MAX_KEYS], ?_⟩
              intro x hx
              simp only [List.mem_cons, List.not_mem_nil, or_false] at hx
              rcases hx with rfl | rfl
              · exact hE3.2.1
              · exact hE4.2.1
            · rw [balanced_iff]
              constructor
              · intro x hx
                simp only [List.mem_cons, List.not_mem_nil, or_false] at hx
                rcases hx with rfl | rfl
                · exact hE3.2.2
                · exact hE4.2.2
              · intro x hx y hy
                simp only [List.mem_cons, List.not_mem_nil, or_false] at hx hy
                have hx' : x.height = c0.height := by
                  rcases hx with rfl | rfl
                  · exact hE3.1
                  · exact hE4.1
                have hy' : y.height = c0.height := by
                  rcases hy with rfl | rfl
                  · exact hE3.1
                  · exact hE4.1
                omega
            · rw [height_cons, height_cons, hE3.1]
        · rw [insert_eq_internal_promo_no hsearch hrec hov]
          refine ⟨?_, ?_, hheq, fun pk' r' hpr => by simp at hpr⟩
          · rw [wfShape_iff]
            refine ⟨Or.inr (by rw [hlencs2, hlenks2]), ?_, hshape2⟩
            simp only [MAX_KEYS] at hov ⊢
            omega
          · rw [balanced_iff]
            exact ⟨hbal2, fun x hx y hy => by rw [hh2 x hx, hh2 y hy]⟩

/-! Section: Ordering invariant: characterizations and consequences -/

theorem lbB_none {K : Type} {cmp : K → K → Ordering} (x : K) :
    lbB cmp none x = true := rfl

theorem ubB_none {K : Type} {cmp : K → K → Ordering} (x : K) :
    ubB cmp none x = true := rfl

theorem lbB_some_iff {K : Type} {cmp : K → K → Ordering} {a x : K} :
    lbB cmp (some a) x = true ↔ cmp a x = .lt := by
  simp only [lbB]
  cases cmp a x <;> simp <;> rfl

theorem ubB_some_iff {K : Type} {cmp : K → K → Ordering} {a x : K} :
    ubB cmp (some a) x = true ↔ cmp x a = .lt := by
  simp only [ubB]
  cases cmp x a <;> simp <;> rfl

theorem lbB_trans {K : Type} {cmp : K → K → Ordering} (hcmp : LawfulCmp cmp)
    {lo : Option K} {a b : K} (h1 : lbB cmp lo a = true) (h2 : cmp a b = .lt) :
    lbB cmp lo b = true := by
  cases lo with
  | none => rfl
  | some w =>
    rw [lbB_some_iff] at h1 ⊢
    exact hcmp.lt_trans h1 h2

theorem ubB_trans {K : Type} {cmp : K → K → Ordering} (hcmp : LawfulCmp cmp)
    {hi : Option K} {a b : K} (h1 : cmp a b = .lt) (h2 : ubB cmp hi b = true) :
    ubB cmp hi a = true := by
  cases hi with
  | none => rfl
  | some w =>
    rw [ubB_some_iff] at h2 ⊢
    exact hcmp.lt_trans h1 h2

theorem inv_nil_nil {K : Type} (cmp : K → K → Ordering) (lo hi : Option K) :
    Node.inv cmp lo hi (.mk [] []) = true := by
  rw [Node.inv]

theorem inv_nil_cons_iff {K : Type} {cmp : K → K → Ordering} {lo hi : Option K}
    {c : Node K} {cs : List (Node K)} :
    Node.inv cmp lo hi (.mk [] (c :: cs)) = true ↔
      Node.inv cmp lo hi c = true ∧ cs = [] := by
  rw [Node.inv]
  simp [Bool.and_eq_true, List.isEmpty_iff]

theorem inv_cons_nil_iff {K : Type} {cmp : K → K → Ordering} {lo hi : Option K}
    {k : K} {ks : List K} :
    Node.inv cmp lo hi (.mk (k :: ks) []) = true ↔
      lbB cmp lo k = true ∧ ubB cmp hi k = true ∧
        Node.inv cmp (some k) hi (.mk ks []) = true := by
  rw [Node.inv]
  simp [Bool.and_eq_true, and_assoc]

theorem inv_cons_cons_iff {K : Type} {cmp : K → K → Ordering} {lo hi : Option K}
    {k : K} {ks : List K} {c : Node K} {cs : List (Node K)} :
    Node.inv cmp lo hi (.mk (k :: ks) (c :: cs)) = true ↔
      Node.inv cmp lo (some k) c = true ∧ lbB cmp lo k = true ∧
        ubB cmp hi k = true ∧ Node.inv cmp (some k) hi (.mk ks cs) = true := by
  rw [Node.inv]
  simp [Bool.and_eq_true, and_assoc]

/-- Every key in the traversal of an `inv`-satisfying node lies strictly
between the node's bounds. -/
theorem inv_toList_bounds {K : Type} {cmp : K → K → Ordering} (hcmp : LawfulCmp cmp) :
    ∀ (lo hi : Option K) (n : Node K), Node.inv cmp lo hi n = true →
      ∀ x ∈ n.toList, lbB cmp lo x = true ∧ ubB cmp hi x = true
  | _, _, .mk [] [], _, x, hx => by simp [Node.toList] at hx
  | lo, hi, .mk [] (c :: cs), h, x, hx => by
    obtain ⟨h1, rfl⟩ := inv_nil_cons_iff.1 h
    simp only [Node.toList, List.append_nil] at hx
    exact inv_toList_bounds hcmp lo hi c h1 x hx
  | lo, hi, .mk (k :: ks) [], h, x, hx => by
    obtain ⟨h1, h2, h3⟩ := inv_cons_nil_iff.1 h
    simp only [Node.toList, List.mem_cons] at hx
    rcases hx with rfl | hx
    · exact ⟨h1, h2⟩
    · have ih := inv_toList_bounds hcmp (some k) hi (.mk ks []) h3 x
        (by simpa [Node.toList] using hx)
      exact ⟨lbB_trans hcmp h1 (lbB_some_iff.1 ih.1), ih.2⟩
  | lo, hi, .mk (k :: ks) (c :: cs), h, x, hx => by
    obtain ⟨h1, h2, h3, h4⟩ := inv_cons_cons_iff.1 h
    simp only [Node.toList, List.mem_append, List.mem_cons] at hx
    rcases hx with hx | rfl | hx
    · have ih := inv_toList_bounds hcmp lo (some k) c h1 x hx
      exact ⟨ih.1, ubB_trans hcmp (ubB_some_iff.1 ih.2) h3⟩
    · exact ⟨h2, h3⟩
    · have ih := inv_toList_bounds hcmp (some k) hi (.mk ks cs) h4 x hx
      exact ⟨lbB_trans hcmp h2 (lbB_some_iff.1 ih.1), ih.2⟩
termination_by lo hi n => sizeOf n

/-- The traversal of an `inv`-satisfying node is strictly ascending. -/
theorem inv_toList_chain {K : Type} {cmp : K → K → Ordering} (hcmp : LawfulCmp cmp) :
    ∀ (lo hi : Option K) (n : Node K), Node.inv cmp lo hi n = true →
      List.Chain' (fun a b => cmp a b = .lt) n.toList
  | _, _, .mk [] [], _ => by simp [Node.toList]
  | lo, hi, .mk [] (c :: cs), h => by
    obtain ⟨h1, rfl⟩ := inv_nil_cons_iff.1 h
    simp only [Node.toList, List.append_nil]
    exact inv_toList_chain hcmp lo hi c h1
  | lo, hi, .mk (k :: ks) [], h => by
    obtain ⟨h1, h2, h3⟩ := inv_cons_nil_iff.1 h
    simp only [Node.toList]
    rw [List.chain'_cons']
    refine ⟨?_, ?_⟩
    · intro y hy
      have hym : y ∈ (Node.mk ks ([] : List (Node K))).toList := by
        simp only [Node.toList]
        exact List.mem_of_mem_head? hy
      exact lbB_some_iff.1 (inv_toList_bounds hcmp (some k) hi _ h3 y hym).1
    · have := inv_toList_chain hcmp (some k) hi (.mk ks []) h3
      simpa [Node.toList] using this
  | lo, hi, .mk (k :: ks) (c :: cs), h => by
    obtain ⟨h1, h2, h3, h4⟩ := inv_cons_cons_iff.1 h
    simp only [Node.toList]
    rw [List.chain'_append]
    refine ⟨inv_toList_chain hcmp lo (some k) c h1, ?_, ?_⟩
    · rw [List.chain'_cons']
      refine ⟨?_, inv_toList_chain hcmp (some k) hi (.mk ks cs) h4⟩
      intro y hy
      exact lbB_some_iff.1
        (inv_toList_bounds hcmp (some k) hi _ h4 y (List.mem_of_mem_head? hy)).1
    · intro x hx y hy
      simp only [List.head?_cons, Option.mem_def, Option.some.injEq] at hy
      subst hy
      have hxm : x ∈ c.toList := List.mem_of_mem_getLast? hx
      exact ubB_some_iff.1 (inv_toList_bounds hcmp lo (some k) c h1 x hxm).2
termination_by lo hi n => sizeOf n

/-! Section: Routing: the insertion slot under the invariant -/

/-- Routing lemma: under the invariant, the scan's insertion index addresses
a child whose bounds bracket the key, and both node-surgery patterns of
`Node.insert` (child replacement, and promotion absorption) rebuild a node
satisfying the invariant. -/
theorem route_inv {K : Type} {cmp : K → K → Ordering} (hcmp : LawfulCmp cmp)
    (d : Node K) (key : K) :
    ∀ (ks : List K) (cs : List (Node K)) (idx : Nat) (lo hi : Option K),
      Node.binary_search cmp key ks = .inr idx →
      lbB cmp lo key = true → ubB cmp hi key = true →
      cs.length = ks.length + 1 →
      Node.inv cmp lo hi (.mk ks cs) = true →
      ∃ lo' hi',
        Node.inv cmp lo' hi' (cs.getD idx d) = true ∧
        lbB cmp lo' key = true ∧ ubB cmp hi' key = true ∧
        (∀ c1, Node.inv cmp lo' hi' c1 = true →
          Node.inv cmp lo hi (.mk ks (cs.set idx c1)) = true) ∧
        (∀ pk c1 rc, Node.inv cmp lo' (some pk) c1 = true →
          Node.inv cmp (some pk) hi' rc = true →
          lbB cmp lo' pk = true → ubB cmp hi' pk = true →
          Node.inv cmp lo hi
            (.mk (ks.insertIdx idx pk)
              ((cs.set idx c1).insertIdx (idx + 1) rc)) = true)
  | [], cs, idx, lo, hi, hscan, hlb, hub, hlen, hinv => by
    simp only [Node.binary_search, Sum.inr.injEq] at hscan
    subst hscan
    obtain ⟨c, rfl⟩ := List.length_eq_one.1 (by simpa using hlen)
    have hc : Node.inv cmp lo hi c = true := (inv_nil_cons_iff.1 hinv).1
    refine ⟨lo, hi, by simpa using hc, hlb, hub, ?_, ?_⟩
    · intro c1 hc1
      simp only [List.set_cons_zero]
      exact inv_nil_cons_iff.2 ⟨hc1, rfl⟩
    · intro pk c1 rc hic1 hirc hlpk hupk
      simp only [List.set_cons_zero, List.insertIdx_zero, List.insertIdx_succ_cons]
      exact inv_cons_cons_iff.2 ⟨hic1, hlpk, hupk,
        inv_nil_cons_iff.2 ⟨hirc, rfl⟩⟩
  | k :: ks', cs, idx, lo, hi, hscan, hlb, hub, hlen, hinv => by
    rcases cs with _ | ⟨c, cs'⟩
    · simp at hlen
    obtain ⟨h1, h2, h3, h4⟩ := inv_cons_cons_iff.1 hinv
    simp only [Node.binary_search] at hscan
    cases hk : cmp k key <;> rw [hk] at hscan
    · cases hs' : Node.binary_search cmp key ks' <;> rw [hs'] at hscan
      · simp at hscan
      · rename_i i
        simp only [Sum.inr.injEq] at hscan
        subst hscan
        obtain ⟨lo', hi', hc, hl, hu, hset, hpro⟩ :=
          route_inv hcmp d key ks' cs' i (some k) hi hs'
            (lbB_some_iff.2 hk) hub
            (by simp only [List.length_cons] at hlen; omega) h4
        refine ⟨lo', hi', by simpa [List.getD_cons_succ] using hc, hl, hu, ?_, ?_⟩
        · intro c1 hc1
          rw [List.set_cons_succ]
          exact inv_cons_cons_iff.2 ⟨h1, h2, h3, hset c1 hc1⟩
        · intro pk c1 rc hic1 hirc hlpk hupk
          rw [List.set_cons_succ, List.insertIdx_succ_cons, List.insertIdx_succ_cons]
          exact inv_cons_cons_iff.2 ⟨h1, h2, h3, hpro pk c1 rc hic1 hirc hlpk hupk⟩
    · simp at hscan
    · simp only [Sum.inr.injEq] at hscan
      subst hscan
      refine ⟨lo, some k, by simpa using h1, hlb,
        ubB_some_iff.2 (hcmp.gt_iff_lt.1 hk), ?_, ?_⟩
      · intro c1 hc1
        rw [List.set_cons_zero]
        exact inv_cons_cons_iff.2 ⟨hc1, h2, h3, h4⟩
      · intro pk c1 rc hic1 hirc hlpk hupk
        rw [List.set_cons_zero, List.insertIdx_zero, List.insertIdx_succ_cons,
          List.insertIdx_zero]
        refine inv_cons_cons_iff.2 ⟨hic1, hlpk,
          ubB_trans hcmp (ubB_some_iff.1 hupk) h3, ?_⟩
        exact inv_cons_cons_iff.2 ⟨hirc, lbB_some_iff.2 (ubB_some_iff.1 hupk), h3, h4⟩

/-- Every key strictly left of the insertion slot is `Less` than the key. -/
theorem route_prefix_lt {K : Type} {cmp : K → K → Ordering} (hcmp : LawfulCmp cmp)
    (key : K) :
    ∀ (ks : List K) (cs : List (Node K)) (idx : Nat) (lo hi : Option K),
      Node.binary_search cmp key ks = .inr idx →
      cs.length = ks.length + 1 →
      Node.inv cmp lo hi (.mk ks cs) = true →
      ∀ x ∈ (Node.mk (ks.take idx) (cs.take idx)).toList, cmp x key = .lt
  | [], cs, idx, lo, hi, hscan, hlen, hinv => by
    simp only [Node.binary_search, Sum.inr.injEq] at hscan
    subst hscan
    intro x hx
    simp [Node.toList] at hx
  | k :: ks', cs, idx, lo, hi, hscan, hlen, hinv => by
    rcases cs with _ | ⟨c, cs'⟩
    · simp at hlen
    obtain ⟨h1, h2, h3, h4⟩ := inv_cons_cons_iff.1 hinv
    simp only [Node.binary_search] at hscan
    cases hk : cmp k key <;> rw [hk] at hscan
    · cases hs' : Node.binary_search cmp key ks' <;> rw [hs'] at hscan
      · simp at hscan
      · rename_i i
        simp only [Sum.inr.injEq] at hscan
        subst hscan
        intro x hx
        simp only [List.take_succ_cons, Node.toList, List.mem_append,
          List.mem_cons] at hx
        rcases hx with hx | rfl | hx
        · have hb := (inv_toList_bounds hcmp lo (some k) c h1 x hx).2
          exact hcmp.lt_trans (ubB_some_iff.1 hb) hk
        · exact hk
        · exact route_prefix_lt hcmp key ks' cs' i (some k) hi hs'
            (by simp only [List.length_cons] at hlen; omega) h4 x hx
    · simp at hscan
    · simp only [Sum.inr.injEq] at hscan
      subst hscan
      intro x hx
      simp [Node.toList] at hx

/-- Every key at or right of the insertion slot's upper key is `Greater`
than the key. -/
theorem route_suffix_gt {K : Type} {cmp : K → K → Ordering} (hcmp : LawfulCmp cmp)
    (key : K) :
    ∀ (ks : List K) (cs : List (Node K)) (idx : Nat) (lo hi : Option K),
      Node.binary_search cmp key ks = .inr idx →
      cs.length = ks.length + 1 →
      Node.inv cmp lo hi (.mk ks cs) = true →
      ∀ x ∈ keyFirst (ks.drop idx) (cs.drop (idx + 1)), cmp x key = .gt
  | [], cs, idx, lo, hi, hscan, hlen, hinv => by
    simp only [Node.binary_search, Sum.inr.injEq] at hscan
    subst hscan
    intro x hx
    simp [keyFirst] at hx
  | k :: ks', cs, idx, lo, hi, hscan, hlen, hinv => by
    rcases cs with _ | ⟨c, cs'⟩
    · simp at hlen
    obtain ⟨h1, h2, h3, h4⟩ := inv_cons_cons_iff.1 hinv
    simp only [Node.binary_search] at hscan
    cases hk : cmp k key <;> rw [hk] at hscan
    · cases hs' : Node.binary_search cmp key ks' <;> rw [hs'] at hscan
      · simp at hscan
      · rename_i i
        simp only [Sum.inr.injEq] at hscan
        subst hscan
        intro x hx
        simp only [List.drop_succ_cons] at hx
        exact route_suffix_gt hcmp key ks' cs' i (some k) hi hs'
          (by simp only [List.length_cons] at hlen; omega) h4 x hx
    · simp at hscan
    · simp only [Sum.inr.injEq] at hscan
      subst hscan
      intro x hx
      simp only [List.drop_zero, List.drop_succ_cons, keyFirst, List.mem_cons] at hx
      rcases hx with rfl | hx
      · exact hk
      · have hb := (inv_toList_bounds hcmp (some k) hi (.mk ks' cs') h4 x hx).1
        have hkx : cmp k x = .lt := lbB_some_iff.1 hb
        have hkey : cmp key k = .lt := hcmp.gt_iff_lt.1 hk
        exact hcmp.gt_iff_lt.2 (hcmp.lt_trans hkey hkx)

/-! Section: Leaf insertion, split invariance, duplicate support -/

theorem inv_leaf_insert {K : Type} {cmp : K → K → Ordering} (hcmp : LawfulCmp cmp)
    (key : K) :
    ∀ (ks : List K) (idx : Nat) (lo hi : Option K),
      Node.binary_search cmp key ks = .inr idx →
      lbB cmp lo key = true → ubB cmp hi key = true →
      Node.inv cmp lo hi (.mk ks []) = true →
      Node.inv cmp lo hi (.mk (ks.insertIdx idx key) []) = true
  | [], idx, lo, hi, hscan, hlb, hub, _ => by
    simp only [Node.binary_search, Sum.inr.injEq] at hscan
    subst hscan
    simp only [List.insertIdx_zero]
    exact inv_cons_nil_iff.2 ⟨hlb, hub, inv_nil_nil cmp _ _⟩
  | k :: ks', idx, lo, hi, hscan, hlb, hub, hinv => by
    obtain ⟨h1, h2, h3⟩ := inv_cons_nil_iff.1 hinv
    simp only [Node.binary_search] at hscan
    cases hk : cmp k key <;> rw [hk] at hscan
    · cases hs' : Node.binary_search cmp key ks' <;> rw [hs'] at hscan
      · simp at hscan
      · rename_i i
        simp only [Sum.inr.injEq] at hscan
        subst hscan
        rw [List.insertIdx_succ_cons]
        exact inv_cons_nil_iff.2 ⟨h1, h2,
          inv_leaf_insert hcmp key ks' i (some k) hi hs' (lbB_some_iff.2 hk) hub h3⟩
    · simp at hscan
    · simp only [Sum.inr.injEq] at hscan
      subst hscan
      rw [List.insertIdx_zero]
      refine inv_cons_nil_iff.2 ⟨hlb, hub, ?_⟩
      exact inv_cons_nil_iff.2 ⟨lbB_some_iff.2 (hcmp.gt_iff_lt.1 hk), h2, h3⟩

/-- Splitting a 4-key leaf preserves the invariant around the promoted key. -/
theorem inv_split_leaf4 {K : Type} {cmp : K → K → Ordering} (hcmp : LawfulCmp cmp)
    {lo hi : Option K} {a b c d : K}
    (h : Node.inv cmp lo hi (.mk [a, b, c, d] []) = true) :
    Node.inv cmp lo (some c) (.mk [a, b] []) = true ∧
    Node.inv cmp (some c) hi (.mk [d] []) = true ∧
    lbB cmp lo c = true ∧ ubB cmp hi c = true := by
  obtain ⟨ha1, ha2, h⟩ := inv_cons_nil_iff.1 h
  obtain ⟨hb1, hb2, h⟩ := inv_cons_nil_iff.1 h
  obtain ⟨hc1, hc2, h⟩ := inv_cons_nil_iff.1 h
  obtain ⟨hd1, hd2, -⟩ := inv_cons_nil_iff.1 h
  have hab : cmp a b = .lt := lbB_some_iff.1 hb1
  have hbc : cmp b c = .lt := lbB_some_iff.1 hc1
  refine ⟨?_, ?_, ?_, hc2⟩
  · refine inv_cons_nil_iff.2 ⟨ha1, ubB_some_iff.2 (hcmp.lt_trans hab hbc), ?_⟩
    exact inv_cons_nil_iff.2 ⟨hb1, ubB_some_iff.2 hbc, inv_nil_nil cmp _ _⟩
  · exact inv_cons_nil_iff.2 ⟨hd1, hd2, inv_nil_nil cmp _ _⟩
  · exact lbB_trans hcmp (lbB_trans hcmp ha1 hab) hbc

/-- Splitting a 4-key, 5-child internal node preserves the invariant. -/
theorem inv_split_internal4 {K : Type} {cmp : K → K → Ordering} (hcmp : LawfulCmp cmp)
    {lo hi : Option K} {a b c d : K} {e0 e1 e2 e3 e4 : Node K}
    (h : Node.inv cmp lo hi (.mk [a, b, c, d] [e0, e1, e2, e3, e4]) = true) :
    Node.inv cmp lo (some c) (.mk [a, b] [e0, e1, e2]) = true ∧
    Node.inv cmp (some c) hi (.mk [d] [e3, e4]) = true ∧
    lbB cmp lo c = true ∧ ubB cmp hi c = true := by
  obtain ⟨he0, ha1, ha2, h⟩ := inv_cons_cons_iff.1 h
  obtain ⟨he1, hb1, hb2, h⟩ := inv_cons_cons_iff.1 h
  obtain ⟨he2, hc1, hc2, h⟩ := inv_cons_cons_iff.1 h
  obtain ⟨he3, hd1, hd2, h⟩ := inv_cons_cons_iff.1 h
  obtain ⟨he4, -⟩ := inv_nil_cons_iff.1 h
  have hab : cmp a b = .lt := lbB_some_iff.1 hb1
  have hbc : cmp b c = .lt := lbB_some_iff.1 hc1
  refine ⟨?_, ?_, ?_, hc2⟩
  · refine inv_cons_cons_iff.2 ⟨he0, ha1,
      ubB_some_iff.2 (hcmp.lt_trans hab hbc), ?_⟩
    refine inv_cons_cons_iff.2 ⟨he1, hb1, ubB_some_iff.2 hbc, ?_⟩
    exact inv_nil_cons_iff.2 ⟨he2, rfl⟩
  · refine inv_cons_cons_iff.2 ⟨he3, hd1, hd2, ?_⟩
    exact inv_nil_cons_iff.2 ⟨he4, rfl⟩
  · exact lbB_trans hcmp (lbB_trans hcmp ha1 hab) hbc

/-- A strictly ascending chain under a lawful comparator is pairwise. -/
theorem chain_lt_pairwise {K : Type} {cmp : K → K → Ordering} (hcmp : LawfulCmp cmp) :
    ∀ {l : List K}, List.Chain' (fun a b => cmp a b = .lt) l →
      List.Pairwise (fun a b => cmp a b = .lt) l
  | [], _ => List.Pairwise.nil
  | y :: l, hch => by
    have hp := chain_lt_pairwise hcmp hch.tail
    refine List.Pairwise.cons ?_ hp
    intro x hx
    rcases l with _ | ⟨z, l'⟩
    · simp at hx
    · have hyz : cmp y z = .lt := (List.chain'_cons.1 hch).1
      rcases List.mem_cons.1 hx with rfl | hx'
      · exact hyz
      · exact hcmp.lt_trans hyz ((List.pairwise_cons.1 hp).1 x hx')

/-- On a pairwise-ascending list containing an `Equal` element, `insKey` is
the identity. -/
theorem insKey_of_mem_eq {K : Type} {cmp : K → K → Ordering} (hcmp : LawfulCmp cmp)
    {key : K} :
    ∀ {l : List K}, List.Pairwise (fun a b => cmp a b = .lt) l →
      (∃ x ∈ l, cmp x key = .eq) → insKey cmp key l = l
  | [], _, ⟨x, hx, _⟩ => absurd hx (by simp)
  | y :: ys, hp, ⟨x, hx, hxeq⟩ => by
    cases hy : cmp y key with
    | lt =>
      simp only [insKey, hy]
      have hxys : x ∈ ys := by
        rcases List.mem_cons.1 hx with rfl | h
        · rw [hy] at hxeq
          cases hxeq
        · exact h
      rw [insKey_of_mem_eq hcmp (List.pairwise_cons.1 hp).2 ⟨x, hxys, hxeq⟩]
    | eq => simp [insKey, hy]
    | gt =>
      exfalso
      rcases List.mem_cons.1 hx with rfl | h
      · rw [hy] at hxeq
        cases hxeq
      · have hyx : cmp y x = .lt := (List.pairwise_cons.1 hp).1 x h
        have : cmp y key = .lt := hcmp.lt_of_lt_of_eq hyx hxeq
        rw [hy] at this
        cases this

theorem mem_toList_of_mem_keys {K : Type} :
    ∀ (ks : List K) (cs : List (Node K)), ∀ x ∈ ks, x ∈ (Node.mk ks cs).toList
  | ks, [], x, hx => by simpa [Node.toList] using hx
  | [], _ :: _, x, hx => by simp at hx
  | k :: ks, c :: cs, x, hx => by
    simp only [Node.toList, List.mem_append, List.mem_cons]
    rcases List.mem_cons.1 hx with rfl | hx'
    · exact Or.inr (Or.inl rfl)
    · exact Or.inr (Or.inr (mem_toList_of_mem_keys ks cs x hx'))

/-- A failed scan on a pairwise-ascending list really means no element
compares `Equal`. -/
theorem binary_search_inr_no_eq {K : Type} {cmp : K → K → Ordering}
    (hcmp : LawfulCmp cmp) {key : K} :
    ∀ {ks : List K} {idx : Nat}, List.Pairwise (fun a b => cmp a b = .lt) ks →
      Node.binary_search cmp key ks = .inr idx → ∀ x ∈ ks, cmp x key ≠ .eq
  | [], _, _, _ => by simp
  | k :: ks', idx, hp, hscan => by
    simp only [Node.binary_search] at hscan
    cases hk : cmp k key <;> rw [hk] at hscan
    · cases hs' : Node.binary_search cmp key ks' <;> rw [hs'] at hscan
      · simp at hscan
      · intro x hx
        rcases List.mem_cons.1 hx with rfl | hx'
        · rw [hk]
          simp
        · exact binary_search_inr_no_eq hcmp (List.pairwise_cons.1 hp).2 hs' x hx'
    · simp at hscan
    · intro x hx
      rcases List.mem_cons.1 hx with rfl | hx'
      · rw [hk]
        simp
      · have hkx : cmp k x = .lt := (List.pairwise_cons.1 hp).1 x hx'
        have hkeyk : cmp key k = .lt := hcmp.gt_iff_lt.1 hk
        have : cmp x key = .gt := hcmp.gt_iff_lt.2 (hcmp.lt_trans hkeyk hkx)
        rw [this]
        simp

theorem set_getD_eq_self {α : Type} (d : α) :
    ∀ (idx : Nat) (l : List α), l.set idx (l.getD idx d) = l
  | _, [] => by simp
  | 0, x :: l => by simp
  | idx + 1, x :: l => by
    simp only [List.getD_cons_succ, List.set_cons_succ]
    rw [set_getD_eq_self d idx l]

/-! Section: Ordering master lemma -/

/-- One `Node.insert` under a lawful comparator realizes the list-level
insertion `insKey` on the traversal and preserves the ordering invariant;
on promotion, the promoted key separates the two parts and lies within the
node's bounds. -/
theorem insert_order {K : Type} {cmp : K → K → Ordering} (hcmp : LawfulCmp cmp)
    (key : K) :
    ∀ n : Node K, ∀ lo hi : Option K,
      n.wfShape = true → Node.inv cmp lo hi n = true →
      lbB cmp lo key = true → ubB cmp hi key = true →
      (match n.insert cmp key with
       | (n1, none) => n1.toList = insKey cmp key n.toList ∧
           Node.inv cmp lo hi n1 = true
       | (n1, some (pk, r)) =>
           n1.toList ++ pk :: r.toList = insKey cmp key n.toList ∧
           Node.inv cmp lo (some pk) n1 = true ∧
           Node.inv cmp (some pk) hi r = true ∧
           lbB cmp lo pk = true ∧ ubB cmp hi pk = true) := by
  refine Node.ind ?_
  intro ks cs IH lo hi hshape hinv hlb hub
  obtain ⟨hcs, hkslen, hall⟩ := wfShape_iff.1 hshape
  cases hsearch : Node.binary_search cmp key ks with
  | inl i =>
    rw [insert_eq_found cs hsearch]
    refine ⟨?_, hinv⟩
    obtain ⟨x, hxk, hxeq⟩ := binary_search_inl_mem hsearch
    exact (insKey_of_mem_eq hcmp
      (chain_lt_pairwise hcmp (inv_toList_chain hcmp lo hi _ hinv))
      ⟨x, mem_toList_of_mem_keys ks cs x hxk, hxeq⟩).symm
  | inr idx =>
    have hidxle : idx ≤ ks.length := binary_search_inr_le hsearch
    cases cs with
    | nil =>
      have hins := insertIdx_scan_eq_insKey hsearch
      have hinv1 := inv_leaf_insert hcmp key ks idx lo hi hsearch hlb hub hinv
      by_cases hov : MAX_KEYS < (ks.insertIdx idx key).length
      · have h4 : (ks.insertIdx idx key).length = 4 := by
          have hl : (ks.insertIdx idx key).length = ks.length + 1 :=
            List.length_insertIdx idx ks hidxle
          simp only [MAX_KEYS] at hov hkslen
          omega
        obtain ⟨a, b, c, d, habcd⟩ := exists_len4 h4
        rw [insert_eq_leaf_ovf hsearch habcd]
        rw [habcd] at hins hinv1
        obtain ⟨hle, hri, hlc, huc⟩ := inv_split_leaf4 hcmp hinv1
        refine ⟨?_, hle, hri, hlc, huc⟩
        show (Node.mk [a, b] ([] : List (Node K))).toList
            ++ c :: (Node.mk [d] ([] : List (Node K))).toList
            = insKey cmp key (Node.mk ks ([] : List (Node K))).toList
        simp only [Node.toList]
        rw [← hins]
        simp
      · rw [insert_eq_leaf_no hsearch hov]
        refine ⟨?_, hinv1⟩
        show (Node.mk (ks.insertIdx idx key) ([] : List (Node K))).toList
            = insKey cmp key (Node.mk ks ([] : List (Node K))).toList
        simp only [Node.toList]
        exact hins
    | cons c0 cs' =>
      have hcslen : (c0 :: cs').length = ks.length + 1 := by
        rcases hcs with h | h
        · exact absurd h (by simp)
        · exact h
      have hidxlt : idx < (c0 :: cs').length := by
        rw [hcslen]
        omega
      have hmem : (c0 :: cs').getD idx (Node.mk [] []) ∈ c0 :: cs' :=
        getD_mem _ hidxlt
      obtain ⟨lo', hi', hcinv, hl', hu', hset, hpro⟩ :=
        route_inv hcmp (Node.mk [] []) key ks (c0 :: cs') idx lo hi hsearch hlb hub
          hcslen hinv
      have hpre := route_prefix_lt hcmp key ks (c0 :: cs') idx lo hi hsearch hcslen hinv
      have hsuf := route_suffix_gt hcmp key ks (c0 :: cs') idx lo hi hsearch hcslen hinv
      have hdecomp := toList_decomp (Node.mk [] []) idx ks (c0 :: cs') hidxle hcslen
      have ih := IH _ hmem lo' hi' (hall _ hmem) hcinv hl' hu'
      rcases hrec : ((c0 :: cs').getD idx (Node.mk [] [])).insert cmp key with ⟨c1, promo⟩
      rw [hrec] at ih
      cases promo with
      | none =>
        obtain ⟨hult, hinvc1⟩ := ih
        rw [insert_eq_internal_none hsearch hrec hkslen]
        refine ⟨?_, hset c1 hinvc1⟩
        show (Node.mk ks ((c0 :: cs').set idx c1)).toList
            = insKey cmp key (Node.mk ks (c0 :: cs')).toList
        have hdecomp2 := toList_decomp (Node.mk [] []) idx ks ((c0 :: cs').set idx c1)
          hidxle (by simpa using hcslen)
        rw [hdecomp2, take_set_of_le c1 idx idx _ le_rfl,
          getD_set_self c1 _ idx _ hidxlt, drop_set_of_lt c1 idx _, hdecomp,
          insKey_append_right _ hsuf, insKey_append_left _ hpre, hult]
      | some pkrc =>
        obtain ⟨pk, rc⟩ := pkrc
        obtain ⟨hult, hinvc1, hinvrc, hlpk, hupk⟩ := ih
        have hinvn1 := hpro pk c1 rc hinvc1 hinvrc hlpk hupk
        have hlenset : ((c0 :: cs').set idx c1).length = ks.length + 1 := by
          simpa using hcslen
        have hlenks2 : (ks.insertIdx idx pk).length = ks.length + 1 :=
          List.length_insertIdx idx ks hidxle
        have hlencs2 : (((c0 :: cs').set idx c1).insertIdx (idx + 1) rc).length
            = ks.length + 2 := by
          rw [List.length_insertIdx (idx + 1) _ (by rw [hlenset]; omega), hlenset]
        have htrav : (Node.mk (ks.insertIdx idx pk)
              (((c0 :: cs').set idx c1).insertIdx (idx + 1) rc)).toList
            = insKey cmp key (Node.mk ks (c0 :: cs')).toList := by
          have hdecomp2 := toList_decomp (Node.mk [] []) idx (ks.insertIdx idx pk)
            (((c0 :: cs').set idx c1).insertIdx (idx + 1) rc)
            (by rw [hlenks2]; omega)
            (by rw [hlencs2, hlenks2])
          rw [hdecomp2]
          rw [take_insertIdx_of_le pk idx idx ks le_rfl]
          rw [take_insertIdx_of_le rc idx (idx + 1) _ (by omega),
            take_set_of_le c1 idx idx _ le_rfl]
          rw [getD_insertIdx_of_lt rc _ idx (idx + 1) _ (by omega),
            getD_set_self c1 _ idx _ hidxlt]
          rw [drop_insertIdx_self pk idx ks hidxle]
          rw [drop_insertIdx_self rc (idx + 1) _ (by rw [hlenset]; omega),
            drop_set_of_lt c1 idx _]
          rw [show keyFirst (pk :: ks.drop idx) (rc :: (c0 :: cs').drop (idx + 1))
              = pk :: (Node.mk (ks.drop idx) (rc :: (c0 :: cs').drop (idx + 1))).toList
              from rfl]
          rw [toList_cons_child (ks.drop idx) rc ((c0 :: cs').drop (idx + 1))
            (by simp only [List.length_drop, hcslen, List.length_cons]; omega)]
          rw [hdecomp, insKey_append_right _ hsuf, insKey_append_left _ hpre, ← hult]
          simp [List.append_assoc]
        by_cases hov : MAX_KEYS < (ks.insertIdx idx pk).length
        · have h4 : (ks.insertIdx idx pk).length = 4 := by
            simp only [MAX_KEYS] at hov hkslen
            omega
          have h5 : (((c0 :: cs').set idx c1).insertIdx (idx + 1) rc).length = 5 := by
            rw [hlencs2]
            simp only [MAX_KEYS] at hov
            omega
          obtain ⟨a, b, c, d, hks4⟩ := exists_len4 h4
          obtain ⟨e0, e1, e2, e3, e4, hcs5⟩ := exists_len5 h5
          rw [insert_eq_internal_promo_ovf hsearch hrec hks4 hcs5]
          rw [hks4, hcs5] at hinvn1 htrav
          obtain ⟨hle, hri, hlc, huc⟩ := inv_split_internal4 hcmp hinvn1
          refine ⟨?_, hle, hri, hlc, huc⟩
          have hsd := toList_split_decomp a 2 [a, b, c, d] [e0, e1, e2, e3, e4]
            (by simp) (by simp)
          simp only [List.take_succ_cons, List.take_zero, List.drop_succ_cons,
            List.drop_zero, List.getD_cons_succ, List.getD_cons_zero] at hsd
          rw [← htrav, hsd]
        · rw [insert_eq_internal_promo_no hsearch hrec hov]
          exact ⟨htrav, hinvn1⟩

/-! Section: Duplicate insertion is a literal no-op -/

theorem lbB_of_eq {K : Type} {cmp : K → K → Ordering} (hcmp : LawfulCmp cmp)
    {lo : Option K} {x key : K} (h1 : lbB cmp lo x = true) (h2 : cmp x key = .eq) :
    lbB cmp lo key = true := by
  cases lo with
  | none => rfl
  | some w =>
    rw [lbB_some_iff] at h1 ⊢
    exact hcmp.lt_of_lt_of_eq h1 h2

theorem ubB_of_eq {K : Type} {cmp : K → K → Ordering} (hcmp : LawfulCmp cmp)
    {hi : Option K} {x key : K} (h1 : ubB cmp hi x = true) (h2 : cmp x key = .eq) :
    ubB cmp hi key = true := by
  cases hi with
  | none => rfl
  | some w =>
    rw [ubB_some_iff] at h1 ⊢
    exact hcmp.lt_of_eq_of_lt (hcmp.eq_symm h2) h1

theorem keys_sublist_toList {K : Type} :
    ∀ (ks : List K) (cs : List (Node K)), ks.Sublist (Node.mk ks cs).toList
  | ks, [] => by
    simp only [Node.toList]
    exact List.Sublist.refl ks
  | [], _ :: _ => List.nil_sublist _
  | k :: ks, c :: cs => by
    simp only [Node.toList]
    exact ((keys_sublist_toList ks cs).cons₂ k).trans
      (List.sublist_append_right c.toList _)

/-- Inserting a key that compares `Equal` to a stored key leaves the node
literally unchanged (same structure) and reports no promotion. -/
theorem insert_noop {K : Type} {cmp : K → K → Ordering} (hcmp : LawfulCmp cmp)
    (key : K) :
    ∀ n : Node K, ∀ lo hi : Option K,
      n.wfShape = true → Node.inv cmp lo hi n = true →
      (∃ x ∈ n.toList, cmp x key = .eq) →
      n.insert cmp key = (n, none) := by
  refine Node.ind ?_
  intro ks cs IH lo hi hshape hinv hex
  obtain ⟨hcs, hkslen, hall⟩ := wfShape_iff.1 hshape
  obtain ⟨x, hxt, hxeq⟩ := hex
  have hxb := inv_toList_bounds hcmp lo hi _ hinv x hxt
  have hlb : lbB cmp lo key = true := lbB_of_eq hcmp hxb.1 hxeq
  have hub : ubB cmp hi key = true := ubB_of_eq hcmp hxb.2 hxeq
  cases hsearch : Node.binary_search cmp key ks with
  | inl i => exact insert_eq_found cs hsearch
  | inr idx =>
    have hidxle : idx ≤ ks.length := binary_search_inr_le hsearch
    have hpw : List.Pairwise (fun a b => cmp a b = .lt) ks :=
      List.Pairwise.sublist (keys_sublist_toList ks cs)
        (chain_lt_pairwise hcmp (inv_toList_chain hcmp lo hi _ hinv))
    have hno := binary_search_inr_no_eq hcmp hpw hsearch
    cases cs with
    | nil =>
      exact absurd hxeq (hno x (by simpa [Node.toList] using hxt))
    | cons c0 cs' =>
      have hcslen : (c0 :: cs').length = ks.length + 1 := by
        rcases hcs with h | h
        · exact absurd h (by simp)
        · exact h
      have hidxlt : idx < (c0 :: cs').length := by
        rw [hcslen]
        omega
      have hmem : (c0 :: cs').getD idx (Node.mk [] []) ∈ c0 :: cs' :=
        getD_mem _ hidxlt
      have hpre := route_prefix_lt hcmp key ks (c0 :: cs') idx lo hi hsearch hcslen hinv
      have hsuf := route_suffix_gt hcmp key ks (c0 :: cs') idx lo hi hsearch hcslen hinv
      have hdecomp := toList_decomp (Node.mk [] []) idx ks (c0 :: cs') hidxle hcslen
      rw [hdecomp] at hxt
      have hxCT : x ∈ ((c0 :: cs').getD idx (Node.mk [] [])).toList := by
        rcases List.mem_append.1 hxt with hx12 | hxS
        · rcases List.mem_append.1 hx12 with hxP | hxCT
          · rw [hpre x hxP] at hxeq
            cases hxeq
          · exact hxCT
        · rw [hsuf x hxS] at hxeq
          cases hxeq
      obtain ⟨lo', hi', hcinv, -, -, -, -⟩ :=
        route_inv hcmp (Node.mk [] []) key ks (c0 :: cs') idx lo hi hsearch hlb hub
          hcslen hinv
      have hrec := IH _ hmem lo' hi' (hall _ hmem) hcinv ⟨x, hxCT, hxeq⟩
      rw [insert_eq_internal_none hsearch hrec hkslen, set_getD_eq_self]

/-! Section: Tree-level invariant and insertion -/

/-- The full invariant of a reachable tree. -/
def goodTree {K : Type} (cmp : K → K → Ordering) (t : BTree K) : Prop :=
  t.root.wfShape = true ∧ t.root.balanced = true ∧
    Node.inv cmp none none t.root = true

theorem goodTree_new {K : Type} (cmp : K → K → Ordering) :
    goodTree cmp (BTree.new : BTree K) := by
  refine ⟨?_, ?_, inv_nil_nil cmp none none⟩
  · show (Node.mk ([] : List K) []).wfShape = true
    rw [wfShape_iff]
    exact ⟨Or.inl rfl, by simp [MAX_KEYS], by simp⟩
  · show (Node.mk ([] : List K) []).balanced = true
    rw [balanced_iff]
    simp

theorem btree_insert_eq_of_none {K : Type} {cmp : K → K → Ordering} {t : BTree K}
    {key : K} {r1 : Node K} (h : t.root.insert cmp key = (r1, none)) :
    BTree.insert cmp t key = ⟨r1⟩ := by
  unfold BTree.insert
  rw [h]

theorem btree_insert_eq_of_promo {K : Type} {cmp : K → K → Ordering} {t : BTree K}
    {key pk : K} {r1 rc : Node K}
    (h : t.root.insert cmp key = (r1, some (pk, rc))) :
    BTree.insert cmp t key = ⟨.mk [pk] [r1, rc]⟩ := by
  unfold BTree.insert
  rw [h]

/-- Shape and balance are preserved at the tree level, for any comparator. -/
theorem btree_insert_shape {K : Type} (cmp : K → K → Ordering) (t : BTree K)
    (key : K) (hs : t.root.wfShape = true) (hb : t.root.balanced = true) :
    (BTree.insert cmp t key).root.wfShape = true ∧
    (BTree.insert cmp t key).root.balanced = true := by
  have hsh := insert_shape cmp key t.root hs hb
  rcases hres : t.root.insert cmp key with ⟨r1, promo⟩
  rw [hres] at hsh
  cases promo with
  | none =>
    rw [btree_insert_eq_of_none hres]
    exact ⟨hsh.1, hsh.2.1⟩
  | some pkrc =>
    obtain ⟨pk, rc⟩ := pkrc
    rw [btree_insert_eq_of_promo hres]
    obtain ⟨hrs, hrb, hrh⟩ := hsh.2.2.2 pk rc rfl
    constructor
    · rw [wfShape_iff]
      refine ⟨Or.inr (by simp), by simp [MAX_KEYS], ?_⟩
      intro x hx
      simp only [List.mem_cons, List.not_mem_nil, or_false] at hx
      rcases hx with rfl | rfl
      · exact hsh.1
      · exact hrs
    · rw [balanced_iff]
      constructor
      · intro x hx
        simp only [List.mem_cons, List.not_mem_nil, or_false] at hx
        rcases hx with rfl | rfl
        · exact hsh.2.1
        · exact hrb
      · intro x hx y hy
        simp only [List.mem_cons, List.not_mem_nil, or_false] at hx hy
        have h1 : r1.height = t.root.height := hsh.2.2.1
        rcases hx with rfl | rfl <;> rcases hy with rfl | rfl <;> omega

/-- Full invariant preservation plus the traversal equation, for a lawful
comparator. -/
theorem btree_insert_good {K : Type} {cmp : K → K → Ordering} (hcmp : LawfulCmp cmp)
    (t : BTree K) (key : K) (hg : goodTree cmp t) :
    goodTree cmp (BTree.insert cmp t key) ∧
    (BTree.insert cmp t key).root.toList = insKey cmp key t.root.toList := by
  obtain ⟨hs, hb, hi⟩ := hg
  have hsh := insert_shape cmp key t.root hs hb
  have hor := insert_order hcmp key t.root none none hs hi rfl rfl
  rcases hres : t.root.insert cmp key with ⟨r1, promo⟩
  rw [hres] at hsh hor
  cases promo with
  | none =>
    rw [btree_insert_eq_of_none hres]
    obtain ⟨ht, hinv1⟩ := hor
    exact ⟨⟨hsh.1, hsh.2.1, hinv1⟩, ht⟩
  | some pkrc =>
    obtain ⟨pk, rc⟩ := pkrc
    rw [btree_insert_eq_of_promo hres]
    obtain ⟨ht, hinv1, hinvrc, hlpk, hupk⟩ := hor
    obtain ⟨hrs, hrb, hrh⟩ := hsh.2.2.2 pk rc rfl
    have hshapeRoot : (Node.mk [pk] [r1, rc]).wfShape = true := by
      rw [wfShape_iff]
      refine ⟨Or.inr (by simp), by simp [MAX_KEYS], ?_⟩
      intro x hx
      simp only [List.mem_cons, List.not_mem_nil, or_false] at hx
      rcases hx with rfl | rfl
      · exact hsh.1
      · exact hrs
    have hbalRoot : (Node.mk [pk] [r1, rc]).balanced = true := by
      rw [balanced_iff]
      constructor
      · intro x hx
        simp only [List.mem_cons, List.not_mem_nil, or_false] at hx
        rcases hx with rfl | rfl
        · exact hsh.2.1
        · exact hrb
      · intro x hx y hy
        simp only [List.mem_cons, List.not_mem_nil, or_false] at hx hy
        have h1 : r1.height = t.root.height := hsh.2.2.1
        rcases hx with rfl | rfl <;> rcases hy with rfl | rfl <;> omega
    refine ⟨⟨hshapeRoot, hbalRoot, ?_⟩, ?_⟩
    · exact inv_cons_cons_iff.2 ⟨hinv1, rfl, rfl,
        inv_nil_cons_iff.2 ⟨hinvrc, rfl⟩⟩
    · show (Node.mk [pk] [r1, rc]).toList = insKey cmp key t.root.toList
      rw [show (Node.mk [pk] [r1, rc]).toList = r1.toList ++ pk :: rc.toList from by
        simp [Node.toList]]
      exact ht

/-- Sequential insertion: the invariant is maintained and the multiset of
stored keys is exactly the distinct keys inserted. -/
theorem foldl_insert_good {K : Type} {cmp : K → K → Ordering} (hcmp : LawfulCmp cmp) :
    ∀ (ks : List K) (t : BTree K), goodTree cmp t →
      List.Pairwise (fun a b => cmp a b ≠ .eq) ks →
      (∀ x ∈ t.root.toList, ∀ k ∈ ks, cmp x k ≠ .eq) →
      goodTree cmp (ks.foldl (BTree.insert cmp) t) ∧
      List.Perm (ks.foldl (BTree.insert cmp) t).root.toList (ks ++ t.root.toList)
  | [], t, hg, _, _ => ⟨hg, by simp⟩
  | k :: ks', t, hg, hpw, hne => by
    simp only [List.foldl_cons]
    obtain ⟨hg', htl⟩ := btree_insert_good hcmp t k hg
    have hperm1 : List.Perm (BTree.insert cmp t k).root.toList (k :: t.root.toList) := by
      rw [htl]
      exact insKey_perm (fun x hx => hne x hx k (by simp))
    have hne' : ∀ x ∈ (BTree.insert cmp t k).root.toList, ∀ j ∈ ks',
        cmp x j ≠ .eq := by
      intro x hx j hj
      rcases List.mem_cons.1 (hperm1.mem_iff.1 hx) with rfl | hx''
      · exact (List.pairwise_cons.1 hpw).1 j hj
      · exact hne x hx'' j (by simp [hj])
    obtain ⟨hgf, hpf⟩ := foldl_insert_good hcmp ks' (BTree.insert cmp t k) hg'
      (List.pairwise_cons.1 hpw).2 hne'
    refine ⟨hgf, ?_⟩
    exact hpf.trans ((hperm1.append_left ks').trans List.perm_middle)

/-- Shape-only sequential preservation, for an arbitrary comparator. -/
theorem foldl_insert_shape {K : Type} (cmp : K → K → Ordering) :
    ∀ (ks : List K) (t : BTree K), t.root.wfShape = true → t.root.balanced = true →
      (ks.foldl (BTree.insert cmp) t).root.wfShape = true ∧
      (ks.foldl (BTree.insert cmp) t).root.balanced = true
  | [], _, hs, hb => ⟨hs, hb⟩
  | k :: ks', t, hs, hb => by
    simp only [List.foldl_cons]
    obtain ⟨hs', hb'⟩ := btree_insert_shape cmp t k hs hb
    exact foldl_insert_shape cmp ks' (BTree.insert cmp t k) hs' hb'

/-- The edge-label computation of the `RecursiveNode` view component:
child 0 gets `"< {keys[0]}"`, the last child (index = key count) gets
`"> {keys[i-1]}"`, and a middle child `i` gets
`format!("{} - {}", keys[i], keys[i-1])` — the source hardwires this
reversed order (its comment: compensate for RTL text direction).
Indexing out of range would panic in Rust; the model defaults to `""`
(the renderer only indexes in range). -/
def childLabel (keys : List String) (i : Nat) : String :=
  if i = 0 then "< " ++ keys.getD 0 ""
  else if i = keys.length then "> " ++ keys.getD (i - 1) ""
  else keys.getD i "" ++ " - " ++ keys.getD (i - 1) ""

/-! Section: Claim theorems -/

/-- C2: for every comparison function satisfying the `Ord` contract and
every sequence of pairwise comparator-distinct keys inserted in any order
into `BTree::new`, the left-to-right depth-first in-order traversal
(child 0's keys, key 0, child 1's keys, key 1, …) of the resulting tree
is strictly ascending under the comparator and consists of exactly the
inserted keys. -/
theorem sorted_traversal {K : Type} {cmp : K → K → Ordering}
    (hcmp : LawfulCmp cmp) (ks : List K)
    (hdist : List.Pairwise (fun a b => cmp a b ≠ .eq) ks) :
    List.Chain' (fun a b => cmp a b = .lt)
      ((ks.foldl (BTree.insert cmp) BTree.new).root.toList) ∧
    List.Perm ((ks.foldl (BTree.insert cmp) BTree.new).root.toList) ks := by
  obtain ⟨hg, hp⟩ := foldl_insert_good hcmp ks BTree.new (goodTree_new cmp) hdist
    (by
      intro x hx
      simp [BTree.new, Node.toList] at hx)
  refine ⟨inv_toList_chain hcmp none none _ hg.2.2, ?_⟩
  simpa [BTree.new, Node.toList] using hp

/-- Witness for C2: inserting `[2, 1, 3]` with the machine-integer
comparator yields a strictly ascending traversal that is a permutation of
the inserted keys. -/
theorem sorted_traversal_witness :
    List.Chain' (fun a b => natCmp a b = .lt)
      ((([2, 1, 3] : List Nat).foldl (BTree.insert natCmp) BTree.new).root.toList) ∧
    List.Perm ((([2, 1, 3] : List Nat).foldl (BTree.insert natCmp) BTree.new).root.toList)
      [2, 1, 3] :=
  sorted_traversal lawful_natCmp [2, 1, 3] (by decide)

/-- C3: every tree reachable from `BTree::new` by any sequence of
`BTree::insert` calls — for an arbitrary comparison function — satisfies
the shape invariant at every node: `children.length = 0` (leaf) or
`children.length = keys.length + 1` (internal), and
`keys.length ≤ MAX_KEYS = 3`.  The bound can be exceeded only transiently
inside a single insertion call: every post-insertion state proved here is
again within bounds. -/
theorem reachable_wfShape {K : Type} (cmp : K → K → Ordering) (ks : List K) :
    (ks.foldl (BTree.insert cmp) BTree.new).root.wfShape = true :=
  (foldl_insert_shape cmp ks BTree.new (goodTree_new cmp).1 (goodTree_new cmp).2.1).1

/-- C4: a node that overflows to exactly `MAX_KEYS + 1 = 4` keys splits at
`mid = 4 / 2 = 2`: the key at index 2 (the 3rd key) is removed and
promoted, the left (original) node keeps the first 2 keys, the right
sibling takes the remaining 1 key; an internal node's 5 children split so
the left keeps children `[0, mid]` (3 children) and the right sibling takes
those from `mid + 1` on (2 children).  Rust returns
`(promoted_key, new_right_sibling)` while mutating `self` into the left
node; the model returns the same data as `(left, promoted, right)`. -/
theorem split_at_four {K : Type} (a b c d : K) (e0 e1 e2 e3 e4 : Node K) :
    ([a, b, c, d] : List K).length / 2 = 2 ∧
    (Node.mk [a, b, c, d] ([] : List (Node K))).split_upper_median
        = some (.mk [a, b] [], c, .mk [d] []) ∧
    (Node.mk [a, b, c, d] [e0, e1, e2, e3, e4]).split_upper_median
        = some (.mk [a, b] [e0, e1, e2], c, .mk [d] [e3, e4]) :=
  ⟨by simp, split_leaf4 a b c d, split_internal4 a b c d e0 e1 e2 e3 e4⟩

/-- C5: if the root's insert returns a promotion, the tree's new root holds
exactly the promoted key with exactly two children — the (post-split) old
root on the left and the returned sibling on the right — and the height
grows by exactly 1; otherwise the new root is just the updated old root and
the height is unchanged.  The two cases are exhaustive, so root replacement
is the only way the height increases. -/
theorem root_growth {K : Type} (cmp : K → K → Ordering) (t : BTree K) (key : K)
    (hs : t.root.wfShape = true) (hb : t.root.balanced = true) :
    (∀ pk r, (t.root.insert cmp key).2 = some (pk, r) →
      (BTree.insert cmp t key).root
          = Node.mk [pk] [(t.root.insert cmp key).1, r] ∧
      (BTree.insert cmp t key).root.height = t.root.height + 1) ∧
    ((t.root.insert cmp key).2 = none →
      (BTree.insert cmp t key).root = (t.root.insert cmp key).1 ∧
      (BTree.insert cmp t key).root.height = t.root.height) := by
  have hsh := insert_shape cmp key t.root hs hb
  rcases hres : t.root.insert cmp key with ⟨r1, promo⟩
  rw [hres] at hsh
  cases promo with
  | none =>
    rw [btree_insert_eq_of_none hres]
    exact ⟨fun pk r hpr => by simp at hpr, fun _ => ⟨rfl, hsh.2.2.1⟩⟩
  | some pkrc =>
    obtain ⟨pk0, rc⟩ := pkrc
    rw [btree_insert_eq_of_promo hres]
    refine ⟨?_, fun h => by simp at h⟩
    intro pk r hpr
    simp only [Option.some.injEq, Prod.mk.injEq] at hpr
    obtain ⟨rfl, rfl⟩ := hpr
    refine ⟨rfl, ?_⟩
    rw [height_cons, hsh.2.2.1]

/-- Witness for C5 at a concrete root split: inserting 4 into the full
leaf root `[1,2,3]` replaces the root by `[3]` with children `[1,2]` and
`[4]`, and the height grows from 1 to 2. -/
theorem root_growth_witness :
    (BTree.insert natCmp (⟨Node.mk [1, 2, 3] []⟩ : BTree Nat) 4).root
        = Node.mk [3] [Node.mk [1, 2] [], Node.mk [4] []] ∧
    (BTree.insert natCmp (⟨Node.mk [1, 2, 3] []⟩ : BTree Nat) 4).root.height
        = (Node.mk [1, 2, 3] ([] : List (Node Nat))).height + 1 := by
  have hres : ((⟨Node.mk [1, 2, 3] []⟩ : BTree Nat) : BTree Nat).root.insert natCmp 4
      = (Node.mk [1, 2] [], some (3, Node.mk [4] [])) := by
    simp [Node.insert, Node.binary_search, Node.split_upper_median, Node.keys,
      MAX_KEYS, natCmp]
  have h := root_growth natCmp (⟨Node.mk [1, 2, 3] []⟩ : BTree Nat) 4
    (by
      show (Node.mk [1, 2, 3] ([] : List (Node Nat))).wfShape = true
      rw [wfShape_iff]
      simp [MAX_KEYS])
    (by
      show (Node.mk [1, 2, 3] ([] : List (Node Nat))).balanced = true
      rw [balanced_iff]
      simp)
  have h2 := h.1 3 (Node.mk [4] []) (by rw [hres])
  refine ⟨?_, h2.2⟩
  rw [h2.1, hres]

/-- C6: inserting a key comparator-equal to an already-stored key is a
silent no-op: the tree (shape and key count) is exactly unchanged — in the
source the method returns `()`, so the caller gets no signal either way —
and inserting the same key twice leaves the tree identical to the state
after the first insertion. -/
theorem duplicate_noop {K : Type} {cmp : K → K → Ordering} (hcmp : LawfulCmp cmp)
    (t : BTree K) (key : K) (hg : goodTree cmp t) :
    ((∃ x ∈ t.root.toList, cmp x key = .eq) → BTree.insert cmp t key = t) ∧
    BTree.insert cmp (BTree.insert cmp t key) key = BTree.insert cmp t key := by
  have hA : ∀ u : BTree K, goodTree cmp u →
      (∃ x ∈ u.root.toList, cmp x key = .eq) → BTree.insert cmp u key = u := by
    intro u hu hex
    rw [btree_insert_eq_of_none (insert_noop hcmp key u.root none none hu.1 hu.2.2 hex)]
  refine ⟨hA t hg, ?_⟩
  obtain ⟨hg', htl⟩ := btree_insert_good hcmp t key hg
  apply hA _ hg'
  rw [htl]
  exact insKey_exists_eq hcmp key _

/-- Witness for C6: inserting the key 1 twice into the empty tree equals
inserting it once. -/
theorem duplicate_noop_witness :
    BTree.insert natCmp (BTree.insert natCmp (BTree.new : BTree Nat) 1) 1
      = BTree.insert natCmp (BTree.new : BTree Nat) 1 :=
  (duplicate_noop lawful_natCmp (BTree.new : BTree Nat) 1 (goodTree_new natCmp)).2

/-- C9 counterexample: for a node with keys `["a", "b"]`, the middle child
(index 1) is labelled `"b - a"` — the reversed form, hardwired — not
`"a - b"` as the claim states for left-to-right rendering. -/
theorem childLabel_counterexample :
    childLabel ["a", "b"] 1 = "b - a" ∧ childLabel ["a", "b"] 1 ≠ "a - b" := by
  refine ⟨by decide, by decide⟩

/-- C9 (amended): the first child's edge label is `"< firstKey"` and the
last child's is `"> lastKey"`, as claimed; but the middle child at index
`i` (0 < i < key count) is rendered as `"key[i] - key[i-1]"` — the reversed
(right-to-left) form — hardwired in the view component, with no
configuration option for the direction. -/
theorem childLabel_spec (keys : List String) (i : Nat) :
    (i = 0 → childLabel keys i = "< " ++ keys.getD 0 "") ∧
    (0 < i → i = keys.length → childLabel keys i = "> " ++ keys.getD (i - 1) "") ∧
    (0 < i → i < keys.length → childLabel keys i
      = keys.getD i "" ++ " - " ++ keys.getD (i - 1) "") := by
  unfold childLabel
  refine ⟨?_, ?_, ?_⟩
  · intro h
    rw [if_pos h]
  · intro h0 hl
    rw [if_neg (by omega), if_pos hl]
  · intro h0 hl
    rw [if_neg (by omega), if_neg (by omega)]

/-- Witness for the amended C9: a middle child between keys `"x"` and `"y"`
is labelled `"y - x"`. -/
theorem childLabel_spec_witness :
    childLabel ["x", "y"] 1 = "y - x" := by
  rw [(childLabel_spec ["x", "y"] 1).2.2 (by decide) (by decide)]
  decide

end BTreeSpec
